import Mathlib

/-!
Verification of the coalesced-hashing map in `src/hash_map.h` (class `HashMap`).

The embedding is a shallow one over `Nat` keys and values with an explicit
hash function parameter `h : Nat → Nat` (the C++ `Hasher` functor; for
integer keys libstdc++'s default hasher is the identity, embedded as `hId`).
Machine integers (`size_t`) are modelled as `Nat`: every quantity involved
(counts, table sizes, slot indices) stays far below 2^64 in the behaviours
the claims are about, so wrap-around is immaterial; the `NONE = (size_t)-1`
sentinel for chain links is modelled as `Option Nat` being `none`.

The C++ `std::list<ValueType>` entry store is modelled as a list of
`(id, key, value)` triples, where `id` is a counter-assigned stable entry
identity playing the role of a `std::list` node address, and the per-slot
`iterator value` member is `Option Nat` holding such an id (a
default-constructed iterator is `none`).  Loops in `Find`/`Insert` and the
`Insert`/`Rehash` recursion are given an explicit fuel: a result of `none`
means the fuel ran out, which for the deterministic walk loops means the
C++ loop does not terminate.
-/

namespace CoalescedHashMap

/-- The static prime capacity table `PRIMES` from the source (186 entries, last about 2^64). -/
def PRIMES : List Nat :=
  [2, 3, 5, 7, 11,
   13, 17, 23, 29, 37,
   47, 59, 73, 97, 127,
   151, 197, 251, 313, 397,
   499, 631, 797, 1009, 1259,
   1597, 2011, 2539, 3203, 4027,
   5087, 6421, 8089, 10193, 12853,
   16193, 20399, 25717, 32401, 40823,
   51437, 64811, 81649, 102877, 129607,
   163307, 205759, 259229, 326617, 411527,
   518509, 653267, 823117, 1037059, 1306601,
   1646237, 2074129, 2613229, 3292489, 4148279,
   5226491, 6584983, 8296553, 10453007, 13169977,
   16593127, 20906033, 26339969, 33186281, 41812097,
   52679969, 66372617, 83624237, 105359939, 132745199,
   167248483, 210719881, 265490441, 334496971, 421439783,
   530980861, 668993977, 842879579, 1061961721, 1337987929,
   1685759167, 2123923447, 2675975881, 3371518343, 4247846927,
   5351951779, 6743036717, 8495693897, 10703903591, 13486073473,
   16991387857, 21407807219, 26972146961, 33982775741, 42815614441,
   53944293929, 67965551447, 85631228929, 107888587883, 135931102921,
   171262457903, 215777175787, 271862205833, 342524915839, 431554351609,
   543724411781, 685049831731, 863108703229, 1087448823553, 1370099663459,
   1726217406467, 2174897647073, 2740199326961, 3452434812973, 4349795294267,
   5480398654009, 6904869625999, 8699590588571, 10960797308051, 13809739252051,
   17399181177241, 21921594616111, 27619478504183, 34798362354533, 43843189232363,
   55238957008387, 69596724709081, 87686378464759, 110477914016779, 139193449418173,
   175372756929481, 220955828033581, 278386898836457, 350745513859007, 441911656067171,
   556773797672909, 701491027718027, 883823312134381, 1113547595345903, 1402982055436147,
   1767646624268779, 2227095190691797, 2805964110872297, 3535293248537579, 4454190381383713,
   5611928221744609, 7070586497075177, 8908380762767489, 11223856443489329, 14141172994150357,
   17816761525534927, 22447712886978529, 28282345988300791, 35633523051069991, 44895425773957261,
   56564691976601587, 71267046102139967, 89790851547914507, 113129383953203213, 142534092204280003,
   179581703095829107, 226258767906406483, 285068184408560057, 359163406191658253, 452517535812813007,
   570136368817120201, 718326812383316683, 905035071625626043, 1140272737634240411, 1436653624766633509,
   1810070143251252131, 2280545475268481167, 2873307249533267101, 3620140286502504283, 4561090950536962147,
   5746614499066534157, 7240280573005008577, 9122181901073924329, 11493228998133068689, 14480561146010017169,
   18446744073709551557]

/-- Embeds `NextPrime`: `*std::lower_bound(begin(PRIMES)+1, end(PRIMES)-1, value)`,
the first element of `PRIMES` after the leading 2 that is `≥ value`; when `value`
exceeds every searched element the iterator `end(PRIMES)-1` is dereferenced,
yielding the last table entry. -/
def NextPrime (value : Nat) : Nat :=
  match (PRIMES.drop 1).dropLast.find? (fun p => value ≤ p) with
  | some p => p
  | none => 18446744073709551557

/-- Embeds `cellar_size_ = primary_size_ * B + 1` with `B = 7 / 43.` stored in a
`float`.  For every prime below 2^21 (far beyond anything exercised here) the
truncated `float` product equals `⌊7p/43⌋`, so the cellar size is modelled with
exact natural division; none of the general theorems below depend on the value. -/
def cellarOf (p : Nat) : Nat := 7 * p / 43 + 1

/-- Embeds `GetMaxLookups`: the per-capacity probe bound switch (default 4). -/
def GetMaxLookups (primary_size : Nat) : Nat :=
  match primary_size with
  | 17 => 5
  | 23 => 5
  | 29 => 5
  | 37 => 6
  | 47 => 6
  | 59 => 6
  | 73 => 7
  | 97 => 7
  | 127 => 7
  | 151 => 8
  | 197 => 8
  | 251 => 8
  | 313 => 9
  | 397 => 9
  | 499 => 9
  | 631 => 10
  | 797 => 10
  | 1009 => 10
  | 1259 => 11
  | 1597 => 11
  | 2011 => 11
  | 2539 => 12
  | 3203 => 12
  | 4027 => 12
  | 5087 => 13
  | 6421 => 13
  | 8089 => 13
  | 10193 => 14
  | 12853 => 14
  | 16193 => 14
  | 20399 => 15
  | 25717 => 15
  | 32401 => 15
  | 40823 => 16
  | 51437 => 16
  | 64811 => 16
  | 81649 => 17
  | 102877 => 17
  | 129607 => 17
  | 163307 => 18
  | 205759 => 18
  | 259229 => 18
  | 326617 => 19
  | 411527 => 19
  | 518509 => 19
  | 653267 => 20
  | 823117 => 20
  | 1037059 => 20
  | 1306601 => 21
  | 1646237 => 21
  | 2074129 => 21
  | 2613229 => 22
  | 3292489 => 22
  | 4148279 => 22
  | 5226491 => 23
  | 6584983 => 23
  | 8296553 => 23
  | 10453007 => 24
  | 13169977 => 24
  | 16593127 => 24
  | 20906033 => 25
  | 26339969 => 25
  | 33186281 => 25
  | 41812097 => 26
  | 52679969 => 26
  | 66372617 => 26
  | 83624237 => 27
  | 105359939 => 27
  | 132745199 => 27
  | 167248483 => 28
  | 210719881 => 28
  | 265490441 => 28
  | 334496971 => 29
  | 421439783 => 29
  | 530980861 => 29
  | 668993977 => 30
  | 842879579 => 30
  | 1061961721 => 30
  | 1337987929 => 31
  | 1685759167 => 31
  | 2123923447 => 31
  | 2675975881 => 32
  | 3371518343 => 32
  | 4247846927 => 32
  | 5351951779 => 33
  | 6743036717 => 33
  | 8495693897 => 33
  | 10703903591 => 34
  | 13486073473 => 34
  | 16991387857 => 34
  | 21407807219 => 35
  | 26972146961 => 35
  | 33982775741 => 35
  | 42815614441 => 36
  | 53944293929 => 36
  | 67965551447 => 36
  | 85631228929 => 37
  | 107888587883 => 37
  | 135931102921 => 37
  | 171262457903 => 38
  | 215777175787 => 38
  | 271862205833 => 38
  | 342524915839 => 39
  | 431554351609 => 39
  | 543724411781 => 39
  | 685049831731 => 40
  | 863108703229 => 40
  | 1087448823553 => 40
  | 1370099663459 => 41
  | 1726217406467 => 41
  | 2174897647073 => 41
  | 2740199326961 => 42
  | 3452434812973 => 42
  | 4349795294267 => 42
  | 5480398654009 => 43
  | 6904869625999 => 43
  | 8699590588571 => 43
  | 10960797308051 => 44
  | 13809739252051 => 44
  | 17399181177241 => 44
  | 21921594616111 => 45
  | 27619478504183 => 45
  | 34798362354533 => 45
  | 43843189232363 => 46
  | 55238957008387 => 46
  | 69596724709081 => 46
  | 87686378464759 => 47
  | 110477914016779 => 47
  | 139193449418173 => 47
  | 175372756929481 => 48
  | 220955828033581 => 48
  | 278386898836457 => 48
  | 350745513859007 => 49
  | 441911656067171 => 49
  | 556773797672909 => 49
  | 701491027718027 => 50
  | 883823312134381 => 50
  | 1113547595345903 => 50
  | 1402982055436147 => 51
  | 1767646624268779 => 51
  | 2227095190691797 => 51
  | 2805964110872297 => 52
  | 3535293248537579 => 52
  | 4454190381383713 => 52
  | 5611928221744609 => 53
  | 7070586497075177 => 53
  | 8908380762767489 => 53
  | 11223856443489329 => 54
  | 14141172994150357 => 54
  | 17816761525534927 => 54
  | 22447712886978529 => 55
  | 28282345988300791 => 55
  | 35633523051069991 => 55
  | 44895425773957261 => 56
  | 56564691976601587 => 56
  | 71267046102139967 => 56
  | 89790851547914507 => 57
  | 113129383953203213 => 57
  | 142534092204280003 => 57
  | 179581703095829107 => 58
  | 226258767906406483 => 58
  | 285068184408560057 => 58
  | 359163406191658253 => 59
  | 452517535812813007 => 59
  | 570136368817120201 => 59
  | 718326812383316683 => 60
  | 905035071625626043 => 60
  | 1140272737634240411 => 60
  | 1436653624766633509 => 61
  | 1810070143251252131 => 61
  | 2280545475268481167 => 61
  | 2873307249533267101 => 62
  | 3620140286502504283 => 62
  | 4561090950536962147 => 62
  | 5746614499066534157 => 63
  | 7240280573005008577 => 63
  | 9122181901073924329 => 63
  | 11493228998133068689 => 64
  | 14480561146010017169 => 64
  | 18446744073709551557 => 64
  | _ => 4

/-- Embeds the per-slot `struct Data`.  `next` is `none` for the C++ `NONE`
sentinel.  `Data()` initialises `used(false), deleted(false), next(NONE)` and
leaves `value` default-constructed and `rev_pos` indeterminate (it is only read
while the slot is `used`); the model fixes them at `none` and `0`. -/
structure Slot where
  value : Option Nat
  used : Bool
  deleted : Bool
  rev_pos : Nat
  next : Option Nat
  deriving Repr, DecidableEq

/-- The freshly constructed slot `Data()`. -/
def Slot.init : Slot := ⟨none, false, false, 0, none⟩

/-- The private fields of `HashMap` (minus the hasher, which the operations
take as an explicit parameter).  `values` is the `std::list<ValueType>` with a
stable id per node; `nextId` is the id supply. -/
structure HMState where
  values : List (Nat × Nat × Nat)
  nextId : Nat
  positions : List Nat
  data : List Slot
  element_count : Nat
  primary_size : Nat
  cellar_size : Nat
  start_pos : Nat
  deriving Repr, DecidableEq

/-- Reading `data_[i]` (out of range is UB in C++ and unreachable; the model
returns a fresh slot). -/
def getSlot (st : HMState) (i : Nat) : Slot := st.data.getD i Slot.init

/-- Writing `data_[i]`. -/
def setSlot (st : HMState) (i : Nat) (s : Slot) : HMState :=
  { st with data := st.data.set i s }

/-- Dereferencing a stored list iterator: look an entry id up in the entry
store, returning its (key, value) pair. -/
def lookupId (values : List (Nat × Nat × Nat)) (id : Nat) : Option (Nat × Nat) :=
  (values.find? (fun e => e.1 = id)).map (fun e => e.2)

/-- The (key, value) sequence the iterators `begin()`/`end()` traverse. -/
def pairsOf (values : List (Nat × Nat × Nat)) : List (Nat × Nat) :=
  values.map (fun e => e.2)

/-- The keys currently stored in the entry store, in insertion order. -/
def keysOf (values : List (Nat × Nat × Nat)) : List Nat :=
  values.map (fun e => e.2.1)

/-- The key held by slot `i`, obtained as the C++ does by dereferencing the
slot's stored iterator. -/
def slotKey (st : HMState) (i : Nat) : Option Nat :=
  ((getSlot st i).value.bind (lookupId st.values)).map (fun e => e.1)

/-- Embeds the private `Find(key, pos)` chain walk.  `none` means the fuel ran
out; since the loop is a deterministic function of `pos`, running for more
steps than there are slots means a slot repeated, i.e. the C++ loop never
terminates.  `some none` is `NONE` (not found), `some (some p)` is a hit. -/
def FindF (st : HMState) (key : Nat) : Nat → Option Nat → Option (Option Nat)
  | 0, _ => none
  | _ + 1, none => some none
  | fuel + 1, some pos =>
    let s := getSlot st pos
    if s.used then
      match s.value.bind (lookupId st.values) with
      | some e => if e.1 = key then some (some pos) else FindF st key fuel s.next
      | none => FindF st key fuel s.next
    else if !s.deleted then some none
    else FindF st key fuel s.next

/-- Embeds the chain walk at the top of `Insert`:
`while (data_[pos].next != NONE && !data_[pos].deleted) { pos = next; ++distance; }`.
Returns the stopping position and the accumulated probe distance. -/
def walkF (st : HMState) : Nat → Nat → Nat → Option (Nat × Nat)
  | 0, _, _ => none
  | fuel + 1, pos, distance =>
    match (getSlot st pos).next with
    | none => some (pos, distance)
    | some nx =>
      if (getSlot st pos).deleted then some (pos, distance)
      else walkF st fuel nx (distance + 1)

/-- Outcome of the free-slot scan in `Insert`: either a slot was picked, or the
probe-distance safety valve fired and the table must be rehashed. -/
inductive ScanRes where
  | pick (slot : Nat)
  | regrow
  deriving Repr, DecidableEq

/-- Embeds the free-slot scan of `Insert`:
`while (data_[next_free].used) { step backward with wrap; ++distance; maybe rehash }`.
The scan stops at the first slot that is not `used` — Occupied slots are
skipped, and both Empty and Tombstone slots terminate it. -/
def scanF (st : HMState) : Nat → Nat → Nat → Option ScanRes
  | 0, _, _ => none
  | fuel + 1, next_free, distance =>
    if (getSlot st next_free).used then
      let nf := if next_free = 0 then st.primary_size + st.cellar_size - 1 else next_free - 1
      let d := distance + 1
      if st.element_count * 4 > st.primary_size ∧ GetMaxLookups st.primary_size < d then
        some ScanRes.regrow
      else
        scanF st fuel nf d
    else some (ScanRes.pick next_free)

/-- The entry-recording tail of `Insert` (lines appending to `values_`, binding
the slot, and pushing onto `positions_`).  The slot's `next` link is *not*
touched, exactly as in the source. -/
def placeEntry (st : HMState) (pos : Nat) (kv : Nat × Nat) : HMState × Nat :=
  let id := st.nextId
  let s := getSlot st pos
  let st' := { st with
    values := st.values ++ [(id, kv.1, kv.2)],
    nextId := id + 1,
    data := st.data.set pos
      { s with value := some id, used := true, deleted := false,
               rev_pos := st.positions.length },
    positions := st.positions ++ [pos],
    element_count := st.element_count + 1 }
  (st', pos)

/-- Call token for the mutually recursive `Insert` / `Rehash` / reinsertion-loop
trio.  Folding the three into one function that is structurally recursive on
the fuel keeps concrete executions definitionally reducible (a well-founded
mutual definition would not reduce inside the kernel). -/
inductive HCall where
  | ins (st : HMState) (kv : Nat × Nat) (pos : Nat)
  | reh (st : HMState) (n : Nat)
  | fold (st : HMState) (l : List (Nat × Nat))

/-- The combined engine behind `Insert`, `Rehash` and the reinsertion loop;
see `InsertF`, `RehashF` and `rehashFold` for the per-source-function readings.

`HCall.ins` embeds the private `Insert(value, pos)`: proactive rehash when the
load factor exceeds 0.5, then either direct placement in an unused bucket
slot, the chain walk with Exit A (reuse of the stopping slot when it is not
`used`, keeping its `next` link) or Exit B (free-slot scan, linking the chain
tail to the picked slot), with the reactive-rehash retry when the scan gives
up; it returns the updated state and the slot the entry was placed in.

`HCall.reh` embeds `Rehash(n)`: reset the counters, pick the new primary and
cellar sizes from `NextPrime`, allocate a fresh slot table, and when the entry
store is non-empty reinsert every stored pair in order (the C++ copies
`values_`, clears it and `positions_`, and calls `Insert` per element).

`HCall.fold` embeds that reinsertion loop, which the copy machinery also runs:
`for (value : values_copy) Insert(value, hasher_(key) % primary_size_)`, where
`primary_size_` is re-read each iteration because a nested rehash may have
changed it. -/
def execF (h : Nat → Nat) : Nat → HCall → Option (HMState × Nat)
  | 0, _ => none
  | fuel + 1, HCall.ins st0 kv pos0 => do
    let spp ←
      if st0.element_count * 2 > st0.primary_size then do
        let r ← execF h fuel (HCall.reh st0 (st0.primary_size * 2))
        pure (r.1, h kv.1 % r.1.primary_size)
      else pure (st0, pos0)
    let st := spp.1
    let pos := spp.2
    if (getSlot st pos).used then
      match walkF st fuel pos 0 with
      | none => none
      | some (p, distance) =>
        if (getSlot st p).used then
          match scanF st fuel st.start_pos distance with
          | none => none
          | some ScanRes.regrow => do
            let r ← execF h fuel (HCall.reh st (st.primary_size * 2))
            execF h fuel (HCall.ins r.1 kv (h kv.1 % r.1.primary_size))
          | some (ScanRes.pick next_free) =>
            let st1 := { st with start_pos := next_free }
            let st2 := setSlot st1 p { getSlot st1 p with next := some next_free }
            some (placeEntry st2 next_free kv)
        else
          some (placeEntry st p kv)
    else
      some (placeEntry st pos kv)
  | fuel + 1, HCall.reh st n =>
    let P := NextPrime n
    let C := cellarOf P
    let st1 : HMState := { st with
      element_count := 0, primary_size := P, cellar_size := C,
      start_pos := P + C - 1,
      data := List.replicate (P + C) Slot.init }
    if st1.values.isEmpty then some (st1, 0)
    else execF h fuel (HCall.fold { st1 with values := [], positions := [] }
           (st1.values.map (fun e => e.2)))
  | _ + 1, HCall.fold st [] => some (st, 0)
  | fuel + 1, HCall.fold st (kv :: rest) => do
    let r ← execF h fuel (HCall.ins st kv (h kv.1 % st.primary_size))
    execF h fuel (HCall.fold r.1 rest)

/-- The private `Insert(value, pos)` (see `execF`). -/
def InsertF (h : Nat → Nat) (fuel : Nat) (st : HMState) (kv : Nat × Nat)
    (pos : Nat) : Option (HMState × Nat) :=
  execF h fuel (HCall.ins st kv pos)

/-- The private `Rehash(n)` (see `execF`). -/
def RehashF (h : Nat → Nat) (fuel : Nat) (st : HMState) (n : Nat) :
    Option HMState :=
  (execF h fuel (HCall.reh st n)).map (fun r => r.1)

/-- The reinsertion loop of `Rehash` and of the copy machinery (see `execF`). -/
def rehashFold (h : Nat → Nat) (fuel : Nat) (st : HMState)
    (l : List (Nat × Nat)) : Option HMState :=
  (execF h fuel (HCall.fold st l)).map (fun r => r.1)

/-- The mapped value a slot exposes (`data_[pos].value->second`): dereference
the slot's stored iterator and project the value. -/
def valueMap (st : HMState) (pos : Nat) : Option Nat :=
  ((getSlot st pos).value.bind (lookupId st.values)).map (fun e => e.2)

/-- Embeds the public `find` down to the value it exposes: `some none` is the
end-sentinel, `some (some v)` a hit on value `v`, `none` exhausted fuel (the
C++ loop runs forever). -/
def findValM (h : Nat → Nat) (st : HMState) (key : Nat) (fuel : Nat) :
    Option (Option Nat) :=
  match FindF st key fuel (some (h key % st.primary_size)) with
  | none => none
  | some none => some none
  | some (some pos) => some (valueMap st pos)

/-- Result of the public `at`: either the mapped value or the
`std::out_of_range("_Map_base::at")` failure (the spec's KeyNotFound). -/
inductive AtResult where
  | ok (v : Nat)
  | keyNotFound
  deriving Repr, DecidableEq

/-- Embeds the public `at(key)`: call `find`; on the end iterator throw
KeyNotFound, otherwise return the found mapped value.  It is the only public
operation with a failure outcome — every other operation in this file either
mutates and returns a state or returns a plain value. -/
def atM (h : Nat → Nat) (st : HMState) (key : Nat) (fuel : Nat) :
    Option AtResult :=
  match findValM h st key fuel with
  | none => none
  | some none => some AtResult.keyNotFound
  | some (some v) => some (AtResult.ok v)

/-- Embeds the public `insert(x)`: `Find` first, and only `Insert` when the
key is absent — inserting an existing key is a no-op. -/
def pubInsertM (h : Nat → Nat) (st : HMState) (kv : Nat × Nat) (fuel : Nat) :
    Option HMState :=
  match FindF st kv.1 fuel (some (h kv.1 % st.primary_size)) with
  | none => none
  | some (some _) => some st
  | some none => (InsertF h fuel st kv (h kv.1 % st.primary_size)).map (fun r => r.1)

/-- Swap two entries of the `positions_` vector. -/
def listSwap (l : List Nat) (i j : Nat) : List Nat :=
  (l.set i (l.getD j 0)).set j (l.getD i 0)

/-- Remove the `std::list` node a stored iterator points at: delete the first
entry carrying the given id (ids are unique in every state the program
builds). -/
def eraseById (values : List (Nat × Nat × Nat)) (id : Nat) :
    List (Nat × Nat × Nat) :=
  match values with
  | [] => []
  | e :: rest => if e.1 = id then rest else e :: eraseById rest id

/-- Embeds the public `erase(key)`: locate the slot with `Find`; if found,
redirect the last `positions_` entry's back-pointer, swap it with the erased
entry's cell, pop, unlink the entry from the store, and turn the slot into a
Tombstone (`used = false`, `deleted = true`, with `next` untouched). -/
def eraseM (h : Nat → Nat) (st : HMState) (key : Nat) (fuel : Nat) :
    Option HMState :=
  match FindF st key fuel (some (h key % st.primary_size)) with
  | none => none
  | some none => some st
  | some (some pos) =>
    let back := st.positions.getLastD 0
    let st1 := setSlot st back { getSlot st back with rev_pos := (getSlot st pos).rev_pos }
    let rv := (getSlot st1 pos).rev_pos
    let positions2 := (listSwap st1.positions rv (st1.positions.length - 1)).dropLast
    let values2 :=
      match (getSlot st1 pos).value with
      | some id => eraseById st1.values id
      | none => st1.values
    let st2 := setSlot st1 pos
      { getSlot st1 pos with value := none, used := false, deleted := true }
    some { st2 with values := values2, positions := positions2,
                    element_count := st2.element_count - 1 }

/-- Embeds the public `clear()`: empty the entry store, reset the slot of
every entry recorded in `positions_` (and only those), empty `positions_`,
zero the count and reset the scan cursor.  Tombstone slots are not recorded in
`positions_` and are left as they are. -/
def clearM (st : HMState) : HMState :=
  { st with
    values := [],
    data := st.positions.foldl (fun d p => d.set p Slot.init) st.data,
    positions := [],
    element_count := 0,
    start_pos := st.primary_size + st.cellar_size - 1 }

/-- Embeds the public `operator[](key)`: `Find`, and on a miss `Insert` a
default-constructed mapped value (`0` for `Nat`), returning the mapped value
of the slot the code hands back a reference to. -/
def opIndexM (h : Nat → Nat) (st : HMState) (key : Nat) (fuel : Nat) :
    Option (HMState × Nat) :=
  match FindF st key fuel (some (h key % st.primary_size)) with
  | none => none
  | some (some pos) => some (st, (valueMap st pos).getD 0)
  | some none => do
    let r ← InsertF h fuel st (key, 0) (h key % st.primary_size)
    some (r.1, (valueMap r.1 r.2).getD 0)

/-- The raw member state before the default constructor body runs (POD members
carry no defined values; every field written here is overwritten by the
`Rehash(0)` the constructors perform before use). -/
def emptyRaw : HMState := ⟨[], 0, [], [], 0, 0, 0, 0⟩

/-- The state built by the default constructor `HashMap(hf)`, i.e. `Rehash(0)`
on the raw state: primary size 3, cellar size 1, four empty slots. -/
def initState : HMState :=
  { values := [], nextId := 0, positions := [],
    data := List.replicate 4 Slot.init,
    element_count := 0, primary_size := 3, cellar_size := 1, start_pos := 3 }

/-- Embeds the range/initializer-list constructors: delegate to the default
constructor, push every incoming pair (duplicates included) onto `values_`,
then `Rehash(values_.size() << 1)`, which reinserts each stored pair with no
duplicate-key check. -/
def fromListCtor (h : Nat → Nat) (l : List (Nat × Nat)) (fuel : Nat) :
    Option HMState :=
  let st := { initState with
    values := (l.enum.map (fun e => (e.1, e.2.1, e.2.2))),
    nextId := l.length }
  RehashF h fuel st (l.length * 2)

/-- Embeds the copy-assignment `operator=`: when the two entry stores compare
equal as (key, value) sequences (`values_ != other.values_` is false) nothing
happens; otherwise the target is cleared, takes the source's primary/cellar
sizing with a fresh slot table, and every source entry is reinserted in
order. -/
def assignM (h : Nat → Nat) (b a : HMState) (fuel : Nat) : Option HMState :=
  if pairsOf b.values = pairsOf a.values then some b
  else
    let P := a.primary_size
    let C := a.cellar_size
    let st0 : HMState := { b with
      values := [], positions := [], element_count := 0,
      primary_size := P, cellar_size := C, start_pos := P + C - 1,
      data := List.replicate (P + C) Slot.init }
    rehashFold h fuel st0 (pairsOf a.values)

/-- A step of the public mutating interface, for describing reachable states:
`pins` is `insert({k, v})`, `pdel` is `erase(k)` (the read-only `find`/`at`
leave the state untouched). -/
inductive POp where
  | pins (k v : Nat)
  | pdel (k : Nat)
  deriving Repr, DecidableEq

/-- Run a sequence of public mutating operations, each with the given fuel. -/
def runPub (h : Nat → Nat) (fuel : Nat) : HMState → List POp → Option HMState
  | st, [] => some st
  | st, POp.pins k v :: rest => do
    let st1 ← pubInsertM h st (k, v) fuel
    runPub h fuel st1 rest
  | st, POp.pdel k :: rest => do
    let st1 ← eraseM h st k fuel
    runPub h fuel st1 rest

/-- libstdc++'s `std::hash` for integer keys: the identity. -/
def hId : Nat → Nat := fun k => k

/-- Embeds the copy constructor `HashMap(const HashMap&)`: start from cleared
members with a fresh id supply, adopt the source's primary/cellar sizing and
a freshly allocated slot table, and reinsert a copy of every source entry in
order (`Insert(x, hasher_(x.first) % primary_size_)` per element). -/
def copyCtorM (h : Nat → Nat) (other : HMState) (fuel : Nat) : Option HMState :=
  let P := other.primary_size
  let C := other.cellar_size
  let st0 : HMState :=
    { values := [],
      nextId := 0,
      positions := [],
      data := List.replicate (P + C) Slot.init,
      element_count := 0,
      primary_size := P,
      cellar_size := C,
      start_pos := P + C - 1 }
  rehashFold h fuel st0 (pairsOf other.values)

/-- A step of the full public mutating interface: `mins` is `insert({k, v})`,
`mdel` is `erase(k)`, `midx` is `operator[](k)` (whose miss path inserts and
may resize), `mclear` is `clear()`, and `massign a` is the copy-assignment
`*this = a` from the source map `a`.  The remaining public operations
(`find`, `at`, `size`, `empty`, `begin`/`end`, `hash_function`) read the map
without modifying it. -/
inductive MOp where
  | mins (k v : Nat)
  | mdel (k : Nat)
  | midx (k : Nat)
  | mclear
  | massign (a : HMState)
  deriving Repr, DecidableEq

/-- Run a sequence of public mutating operations, each with the given fuel. -/
def runMut (h : Nat → Nat) (fuel : Nat) : HMState → List MOp → Option HMState
  | st, [] => some st
  | st, MOp.mins k v :: rest => do
    let st1 ← pubInsertM h st (k, v) fuel
    runMut h fuel st1 rest
  | st, MOp.mdel k :: rest => do
    let st1 ← eraseM h st k fuel
    runMut h fuel st1 rest
  | st, MOp.midx k :: rest => do
    let r ← opIndexM h st k fuel
    runMut h fuel r.1 rest
  | st, MOp.mclear :: rest => runMut h fuel (clearM st) rest
  | st, MOp.massign a :: rest => do
    let st1 ← assignM h st a fuel
    runMut h fuel st1 rest

/-- The source maps fed to the copy-assignments of an operation sequence. -/
def assignSources : List MOp → List HMState
  | [] => []
  | MOp.massign a :: rest => a :: assignSources rest
  | _ :: rest => assignSources rest

/-! ### Concrete operation sequences and reachable states used by the analysis -/

/-- A 24-operation public `insert`/`erase` sequence (integer keys, identity
hasher).  It grows the table to primary size 17, walks the free-slot cursor
down to slot 16 through four Exit-B allocations, leaves slot 15 a Tombstone
whose stale `next` link points at slot 16, and finally inserts key 16; that
insertion's free-slot scan picks the Tombstone at slot 15 and links slot 16 to
it, closing the chain-link cycle 16 → 15 → 16. -/
def cycleOps : List POp :=
  [POp.pins 0 0, POp.pins 1 1, POp.pins 2 2, POp.pins 3 3, POp.pins 4 4,
   POp.pdel 0, POp.pdel 1,
   POp.pins 5 5, POp.pins 22 22, POp.pdel 5, POp.pdel 2,
   POp.pins 6 6, POp.pins 23 23, POp.pdel 6, POp.pdel 22,
   POp.pins 7 7, POp.pins 24 24, POp.pdel 7, POp.pdel 23,
   POp.pins 15 15, POp.pins 32 32, POp.pdel 24, POp.pdel 15,
   POp.pins 16 16]

/-- The state reached from the default-constructed map by `cycleOps`
(certified by `reach_cycleState` below): slots 15 and 16 are Occupied with
`next` links pointing at each other. -/
def cycleState : HMState :=
  { values := [(9, 3, 3), (10, 4, 4), (18, 32, 32), (19, 16, 16)],
    nextId := 20,
    positions := [4, 3, 16, 15],
    data := [⟨none, false, true, 0, none⟩, ⟨none, false, true, 1, none⟩,
             ⟨none, false, true, 2, none⟩, ⟨some 9, true, false, 1, none⟩,
             ⟨some 10, true, false, 0, none⟩, ⟨none, false, true, 3, some 19⟩,
             ⟨none, false, true, 3, some 18⟩, ⟨none, false, true, 3, some 17⟩,
             Slot.init, Slot.init, Slot.init, Slot.init, Slot.init, Slot.init,
             Slot.init,
             ⟨some 19, true, false, 3, some 16⟩, ⟨some 18, true, false, 2, some 15⟩,
             ⟨none, false, true, 2, none⟩, ⟨none, false, true, 2, none⟩,
             ⟨none, false, true, 2, none⟩],
    element_count := 4, primary_size := 17, cellar_size := 3, start_pos := 15 }

/-- The state one operation before `cycleState` (all of `cycleOps` but the
final `insert(16)`, certified by `reach_preCycleState` below): slot 15 is a
Tombstone with a stale `next` link to 16, and the persisted scan cursor sits
at 16. -/
def preCycleState : HMState :=
  { values := [(9, 3, 3), (10, 4, 4), (18, 32, 32)],
    nextId := 19,
    positions := [4, 3, 16],
    data := [⟨none, false, true, 0, none⟩, ⟨none, false, true, 1, none⟩,
             ⟨none, false, true, 2, none⟩, ⟨some 9, true, false, 1, none⟩,
             ⟨some 10, true, false, 0, none⟩, ⟨none, false, true, 3, some 19⟩,
             ⟨none, false, true, 3, some 18⟩, ⟨none, false, true, 3, some 17⟩,
             Slot.init, Slot.init, Slot.init, Slot.init, Slot.init, Slot.init,
             Slot.init,
             ⟨none, false, true, 3, some 16⟩, ⟨some 18, true, false, 2, none⟩,
             ⟨none, false, true, 2, none⟩, ⟨none, false, true, 2, none⟩,
             ⟨none, false, true, 2, none⟩],
    element_count := 3, primary_size := 17, cellar_size := 3, start_pos := 16 }

/-- Three operations from a fresh map: chain slot 0 → slot 3 at primary size
3, then erase the chain head, leaving a Tombstone at slot 0. -/
def clearOps : List POp := [POp.pins 0 0, POp.pins 3 3, POp.pdel 0]

/-- The state reached by `clearOps` (certified by `reach_clearPre` below),
to which `clear()` is then applied. -/
def clearPre : HMState :=
  { values := [(1, 3, 3)],
    nextId := 2,
    positions := [3],
    data := [⟨none, false, true, 0, some 3⟩, Slot.init, Slot.init,
             ⟨some 1, true, false, 0, none⟩],
    element_count := 1, primary_size := 3, cellar_size := 1, start_pos := 3 }

/-- Five operations growing a map to primary size 7 and erasing back down to
the single entry (0, 0). -/
def aOps : List POp :=
  [POp.pins 0 0, POp.pins 1 1, POp.pins 2 2, POp.pdel 1, POp.pdel 2]

/-- Assignment source (certified by `reach_aState` below): holds exactly the
entry (0, 0) at primary size 7. -/
def aState : HMState :=
  { values := [(2, 0, 0)],
    nextId := 5,
    positions := [0],
    data := [⟨some 2, true, false, 0, none⟩, ⟨none, false, true, 1, none⟩,
             ⟨none, false, true, 1, none⟩, Slot.init, Slot.init, Slot.init,
             Slot.init, Slot.init, Slot.init],
    element_count := 1, primary_size := 7, cellar_size := 2, start_pos := 8 }

/-- Assignment target (certified by `reach_bState` below): holds exactly the
entry (0, 0) at primary size 3. -/
def bState : HMState :=
  { values := [(0, 0, 0)],
    nextId := 1,
    positions := [0],
    data := [⟨some 0, true, false, 0, none⟩, Slot.init, Slot.init, Slot.init],
    element_count := 1, primary_size := 3, cellar_size := 1, start_pos := 3 }

/-- The state built by the initializer-list constructor from
`{{1, 10}, {1, 20}}` (certified by `reach_dupState` below): both pairs are
stored, key 1 occupies slots 1 and 5. -/
def dupState : HMState :=
  { values := [(2, 1, 10), (3, 1, 20)],
    nextId := 4,
    positions := [1, 5],
    data := [Slot.init, ⟨some 2, true, false, 0, some 5⟩, Slot.init, Slot.init,
             Slot.init, ⟨some 3, true, false, 1, none⟩],
    element_count := 2, primary_size := 5, cellar_size := 1, start_pos := 5 }

/-- An operation sequence exercising every public mutating operation:
insert, `operator[]` on a missing key, `clear`, copy-assignment from
`bState`, and erase. -/
def mutOps : List MOp :=
  [MOp.mins 0 0, MOp.midx 5, MOp.mclear, MOp.massign bState, MOp.mdel 0]

/-- The state `mutOps` reaches from the default-constructed map (certified
inside `primary_size_from_table_witness`): primary size 3 with a Tombstone
left at slot 0 by the final erase. -/
def mutResult : HMState :=
  { values := [],
    nextId := 3,
    positions := [],
    data := [⟨none, false, true, 0, none⟩, Slot.init, Slot.init, Slot.init],
    element_count := 0, primary_size := 3, cellar_size := 1, start_pos := 3 }

/-! ### Trusted reference model (a plain association list) -/

/-- Reference lookup: the value stored under `k`, or `none` (the
end-sentinel). -/
def refFindV (m : List (Nat × Nat)) (k : Nat) : Option Nat :=
  (m.find? (fun e => e.1 = k)).map (fun e => e.2)

/-- Reference insert: add the pair only if the key is absent, else no-op. -/
def refIns (m : List (Nat × Nat)) (k v : Nat) : List (Nat × Nat) :=
  if (m.find? (fun e => e.1 = k)).isSome then m else m ++ [(k, v)]

/-- Reference erase: remove the key if present, else no-op. -/
def refDel (m : List (Nat × Nat)) (k : Nat) : List (Nat × Nat) :=
  m.filter (fun e => ¬ e.1 = k)

/-- Run a public operation sequence against the reference map. -/
def refRun : List POp → List (Nat × Nat) → List (Nat × Nat)
  | [], m => m
  | POp.pins k v :: rest, m => refRun rest (refIns m k v)
  | POp.pdel k :: rest, m => refRun rest (refDel m k)

/-! ### Structural predicates -/

/-- A genuinely Empty slot (never occupied since the table was built) carries
no chain link.  This holds in every state the program can build: slots become
Empty only wholesale (fresh tables, `clear` of occupied slots), always with
`next = NONE`, and acquiring a link coincides with becoming Occupied. -/
def EmptyUnlinked (st : HMState) : Prop :=
  ∀ i, (getSlot st i).used = false → (getSlot st i).deleted = false →
    (getSlot st i).next = none

/-- Every id stored in the entry store is below the id supply counter, so a
freshly allocated id is distinct from every stored one. -/
def IdsBelow (st : HMState) : Prop := ∀ e ∈ st.values, e.1 < st.nextId

/-- The slot table really has `primary_size + cellar_size` slots and the
primary region is non-trivial (true from the first `Rehash(0)` on). -/
def SizedOk (st : HMState) : Prop :=
  st.data.length = st.primary_size + st.cellar_size ∧ 0 < st.primary_size

/-- Every chain link points inside the slot table. -/
def LinksOk (st : HMState) : Prop :=
  ∀ i j, (getSlot st i).next = some j → j < st.data.length

/-- The persisted free-slot cursor points inside the slot table. -/
def StartOk (st : HMState) : Prop := st.start_pos < st.data.length

/-- The structural facts the functional-correctness theorems rely on.  All are
established by the constructors and preserved by every public operation (in
particular they do not rule out the reachable chain-link cycles). -/
def Inv (st : HMState) : Prop :=
  EmptyUnlinked st ∧ IdsBelow st ∧ SizedOk st ∧ LinksOk st ∧ StartOk st

/-- Membership of the primary size in the searched tail of the prime table
(everything except the leading 2). -/
def PrimaryOk (st : HMState) : Prop := st.primary_size ∈ PRIMES.drop 1

/-- One backward step of the free-slot scan: decrement, wrapping from 0 to
the last slot of the table. -/
def scanStep (st : HMState) (i : Nat) : Nat :=
  if i = 0 then st.primary_size + st.cellar_size - 1 else i - 1

/-- The position the free-slot scan examines after `j` backward steps from
`nf`. -/
def scanSeq (st : HMState) (nf : Nat) : Nat → Nat
  | 0 => nf
  | j + 1 => scanStep st (scanSeq st nf j)

/-! ### Theorems.  First, certification of the concrete reachable states. -/

/-- Running `cycleOps` from the default-constructed map reaches `cycleState`. -/
theorem reach_cycleState : runPub hId 100 initState cycleOps = some cycleState := by
  decide

/-- Running all of `cycleOps` but its final insertion reaches `preCycleState`. -/
theorem reach_preCycleState :
    runPub hId 100 initState (cycleOps.take 23) = some preCycleState := by
  decide

/-- Running `clearOps` from the default-constructed map reaches `clearPre`. -/
theorem reach_clearPre : runPub hId 50 initState clearOps = some clearPre := by
  decide

/-- Running `aOps` from the default-constructed map reaches `aState`. -/
theorem reach_aState : runPub hId 50 initState aOps = some aState := by decide

/-- A single `insert({0, 0})` from the default-constructed map reaches
`bState`. -/
theorem reach_bState :
    runPub hId 50 initState [POp.pins 0 0] = some bState := by decide

/-- The initializer-list constructor applied to `{{1, 10}, {1, 20}}` builds
`dupState`. -/
theorem reach_dupState :
    fromListCtor hId [(1, 10), (1, 20)] 100 = some dupState := by decide

/-- Unfolding one step of the `Find` walk through an Occupied slot whose key
does not match: the walk moves on along the slot's `next` link. -/
theorem FindF_step_miss (st : HMState) (key fuel pos : Nat) (s : Slot)
    (e : Nat × Nat) (hs : getSlot st pos = s) (hu : s.used = true)
    (hl : s.value.bind (lookupId st.values) = some e) (hne : ¬ e.1 = key) :
    FindF st key (fuel + 1) (some pos) = FindF st key fuel s.next := by
  simp [FindF, hs, hu, hl, hne]

/-- C5: the spec claims that in every state reachable by public operations,
following the `next` links from a primary bucket never revisits a slot and
the `Find`/`Insert` chain walks terminate.  The state `cycleState`, reached
from the default-constructed map by the 24 public insert/erase operations
`cycleOps` under the identity hasher, refutes this: primary slots 15 and 16
are both Occupied and their `next` links point at each other, so the walk
from primary bucket 16 revisits slot 16 after two steps and never reaches a
chain end. -/
theorem chain_cycle_reachable :
    runPub hId 100 initState cycleOps = some cycleState ∧
    16 < cycleState.primary_size ∧
    (getSlot cycleState 16).used = true ∧
    (getSlot cycleState 16).next = some 15 ∧
    (getSlot cycleState 15).used = true ∧
    (getSlot cycleState 15).next = some 16 :=
  ⟨reach_cycleState, by decide, by decide, by decide, by decide, by decide⟩

/-- C1: the differential property fails.  After the interleaving `cycleOps`
(24 public inserts/erases of plain integer keys under the identity hasher),
the trusted reference map answers `find(33)` with the end-sentinel, but the
code's `Find` walk for key 33 starts at primary bucket 16 and cycles between
slots 16 and 15 forever: it returns no answer under any fuel, i.e. the C++
`find(33)` never terminates, so no final observable state exists at all. -/
theorem find_diverges_from_reference_map :
    runPub hId 100 initState cycleOps = some cycleState ∧
    refFindV (refRun cycleOps []) 33 = none ∧
    hId 33 % cycleState.primary_size = 16 ∧
    ∀ fuel, FindF cycleState 33 fuel (some 16) = none := by
  refine ⟨reach_cycleState, by decide, by decide, ?_⟩
  have key : ∀ f, FindF cycleState 33 f (some 16) = none ∧
      FindF cycleState 33 f (some 15) = none := by
    intro f
    induction f with
    | zero => exact ⟨rfl, rfl⟩
    | succ n ih =>
      refine ⟨?_, ?_⟩
      · rw [FindF_step_miss cycleState 33 n 16 ⟨some 18, true, false, 2, some 15⟩
            (32, 32) (by decide) rfl (by decide) (by decide)]
        exact ih.2
      · rw [FindF_step_miss cycleState 33 n 15 ⟨some 19, true, false, 3, some 16⟩
            (16, 16) (by decide) rfl (by decide) (by decide)]
        exact ih.1
  exact fun fuel => (key fuel).1

/-- C3 counterexample: `operator[]` can fail.  In the reachable state
`cycleState` the key 33 is absent, yet `operator[](33)` does not complete:
its initial `Find` walk loops between slots 16 and 15 (see
`find_diverges_from_reference_map`), so the claim that the operator never
fails and leaves `find(33)` succeeding is false. -/
theorem opIndex_on_cycle_fails_cex :
    runPub hId 100 initState cycleOps = some cycleState ∧
    (keysOf cycleState.values).contains 33 = false ∧
    opIndexM hId cycleState 33 100 = none :=
  ⟨reach_cycleState, by decide, by decide⟩

/-- C4: the spec claims construction from input containing duplicate keys
still leaves each key in at most one slot.  The initializer-list constructor
applied to `{{1, 10}, {1, 20}}` refutes this: both pairs are bulk-reinserted
by `Rehash` with no duplicate check, so the resulting map stores key 1 twice
(slots 1 and 5) and reports `size() == 2`. -/
theorem ctor_stores_duplicate_keys :
    fromListCtor hId [(1, 10), (1, 20)] 100 = some dupState ∧
    dupState.element_count = 2 ∧
    keysOf dupState.values = [1, 1] ∧
    slotKey dupState 1 = some 1 ∧
    slotKey dupState 5 = some 1 :=
  ⟨reach_dupState, by decide, by decide, by decide, by decide⟩

/-- C6 counterexample: the free-slot scan of Exit B does not always choose a
genuinely Empty slot, nor does it stay inside the cellar.  In the reachable
state `preCycleState` the final `insert(16)` of `cycleOps` reaches Exit B and
its scan (starting at the persisted cursor 16 with the walk's probe distance
0) picks slot 15 — a Tombstone (`deleted`, not Empty) lying in the primary
region, not the cellar. -/
theorem scan_picks_tombstone_cex :
    runPub hId 100 initState (cycleOps.take 23) = some preCycleState ∧
    pubInsertM hId preCycleState (16, 16) 100 = some cycleState ∧
    scanF preCycleState 100 preCycleState.start_pos 0 = some (ScanRes.pick 15) ∧
    (getSlot preCycleState 15).used = false ∧
    (getSlot preCycleState 15).deleted = true ∧
    15 < preCycleState.primary_size :=
  ⟨reach_preCycleState, by decide, by decide, by decide, by decide, by decide⟩

/-- C7 counterexample: `clear()` does not reset every slot to Empty.  In the
reachable state `clearPre` slot 0 is a Tombstone (not recorded in
`positions_`), and after `clear()` it is still a Tombstone and still carries
its chain link to slot 3. -/
theorem clear_keeps_tombstone_cex :
    runPub hId 50 initState clearOps = some clearPre ∧
    (getSlot (clearM clearPre) 0).deleted = true ∧
    (getSlot (clearM clearPre) 0).next = some 3 ∧
    (clearM clearPre).element_count = 0 :=
  ⟨reach_clearPre, by decide, by decide, by decide⟩

/-- C8 counterexample: copy-assignment does not rebuild when the contents of
the two maps compare equal.  `aState` (primary size 7) and `bState` (primary
size 3) hold the same (key, value) sequence, and `b = a` returns `b`
untouched: `b`'s table is not rebuilt and does not take `a`'s primary/cellar
sizes. -/
theorem assign_equal_contents_skip_cex :
    runPub hId 50 initState aOps = some aState ∧
    runPub hId 50 initState [POp.pins 0 0] = some bState ∧
    pairsOf bState.values = pairsOf aState.values ∧
    aState.primary_size = 7 ∧ aState.cellar_size = 2 ∧
    bState.primary_size = 3 ∧ bState.cellar_size = 1 ∧
    assignM hId bState aState 50 = some bState :=
  ⟨reach_aState, reach_bState, by decide, by decide, by decide, by decide,
   by decide, by decide⟩

/-- C2: `at(k)` fails with KeyNotFound exactly when `find(k)` yields the
end-sentinel; when `find` yields a value, `at` returns that same value; and
the two diverge in exactly the same circumstances (`at` is a direct wrapper
around `find`, and no other public operation has a failure outcome — every
other operation of the model is total up to the shared fuel). -/
theorem at_fails_iff_find_end (h : Nat → Nat) (st : HMState) (key fuel : Nat) :
    (atM h st key fuel = some AtResult.keyNotFound ↔
      findValM h st key fuel = some none) ∧
    (∀ v, findValM h st key fuel = some (some v) →
      atM h st key fuel = some (AtResult.ok v)) ∧
    (atM h st key fuel = none ↔ findValM h st key fuel = none) := by
  rcases hf : findValM h st key fuel with _ | _ | v <;> simp [atM, hf]

/-- Witness for `at_fails_iff_find_end` at a concrete input: on the
default-constructed map `at(0)` fails with KeyNotFound. -/
theorem at_fails_iff_find_end_witness :
    atM hId initState 0 10 = some AtResult.keyNotFound :=
  ((at_fails_iff_find_end hId initState 0 10).1).mpr (by decide)

/-! ### Supporting lemmas about slot access and the entry store -/

/-- Reading beyond the slot table yields a fresh slot. -/
theorem getSlot_out (st : HMState) (i : Nat) (hi : st.data.length ≤ i) :
    getSlot st i = Slot.init := by
  simp [getSlot, List.getD_eq_getElem?_getD, List.getElem?_eq_none hi]

/-- Reading back a written slot. -/
theorem getSlot_setSlot_self (st : HMState) (i : Nat) (s : Slot)
    (hi : i < st.data.length) : getSlot (setSlot st i s) i = s := by
  simp [getSlot, setSlot, List.getD_eq_getElem?_getD, List.getElem?_set_eq hi]

/-- Writing one slot leaves every other slot unchanged. -/
theorem getSlot_setSlot_ne (st : HMState) (i j : Nat) (s : Slot) (hij : i ≠ j) :
    getSlot (setSlot st i s) j = getSlot st j := by
  simp [getSlot, setSlot, List.getD_eq_getElem?_getD, List.getElem?_set_ne hij]

/-- Iterator lookup distributes over appending to the entry store. -/
theorem lookupId_append (vs ws : List (Nat × Nat × Nat)) (id : Nat) :
    lookupId (vs ++ ws) id =
      match lookupId vs id with
      | some e => some e
      | none => lookupId ws id := by
  unfold lookupId
  rw [List.find?_append]
  cases h : vs.find? (fun e => e.1 = id) <;> simp [Option.or, h]

/-- A successful iterator lookup returns a key that is present in the entry
store. -/
theorem lookupId_key_mem (vs : List (Nat × Nat × Nat)) (id : Nat)
    (e : Nat × Nat) (hl : lookupId vs id = some e) : e.1 ∈ keysOf vs := by
  unfold lookupId at hl
  cases hf : vs.find? (fun x => x.1 = id) with
  | none => rw [hf] at hl; exact absurd hl (by simp)
  | some x =>
    rw [hf] at hl
    have hm := List.mem_of_find?_eq_some hf
    have : e = x.2 := by simpa using hl.symm
    subst this
    exact List.mem_map.mpr ⟨x, hm, rfl⟩

/-- Looking up an id larger than everything in the store fails. -/
theorem lookupId_none_of_below (vs : List (Nat × Nat × Nat)) (n : Nat)
    (h : ∀ e ∈ vs, e.1 < n) : lookupId vs n = none := by
  unfold lookupId
  cases hf : vs.find? (fun e => e.1 = n) with
  | none => rfl
  | some x =>
    have hx := List.find?_some hf
    have hm := List.mem_of_find?_eq_some hf
    have : x.1 = n := by simpa using hx
    exact absurd (this ▸ h x hm) (lt_irrefl n)

/-- `eraseById` removes exactly the entry a successful lookup found: the
store splits as `pre ++ found :: post` with the found entry carrying the
looked-up pair, and erasing yields `pre ++ post`. -/
theorem eraseById_split (vs : List (Nat × Nat × Nat)) (id : Nat) (e : Nat × Nat)
    (hl : lookupId vs id = some e) :
    ∃ pre en post, vs = pre ++ en :: post ∧ en.1 = id ∧ en.2 = e ∧
      eraseById vs id = pre ++ post := by
  induction vs with
  | nil => exact absurd hl (by simp [lookupId])
  | cons x rest ih =>
    by_cases hx : x.1 = id
    · refine ⟨[], x, rest, rfl, hx, ?_, by simp [eraseById, hx]⟩
      unfold lookupId at hl
      rw [List.find?_cons] at hl
      simp [hx] at hl
      exact hl
    · have hl' : lookupId rest id = some e := by
        unfold lookupId at hl ⊢
        rw [List.find?_cons] at hl
        simpa [hx] using hl
      obtain ⟨pre, en, post, hsplit, hen, hee, her⟩ := ih hl'
      exact ⟨x :: pre, en, post, by simp [hsplit], hen, hee,
        by simp [eraseById, hx, her]⟩

/-! ### Postconditions of the `Find`, walk and scan loops -/

/-- A successful `Find` returns an Occupied slot whose stored iterator
dereferences to the searched key. -/
theorem FindF_found (st : HMState) (key : Nat) :
    ∀ fuel op p, FindF st key fuel op = some (some p) →
      (getSlot st p).used = true ∧
      ∃ id vv, (getSlot st p).value = some id ∧
        lookupId st.values id = some (key, vv) := by
  intro fuel
  induction fuel with
  | zero => intro op p hf; exact absurd hf (by simp [FindF])
  | succ n ih =>
    intro op p hf
    match op with
    | none => simp [FindF] at hf
    | some pos =>
      rw [FindF] at hf
      by_cases hu : (getSlot st pos).used
      · rw [if_pos hu] at hf
        cases hb : (getSlot st pos).value.bind (lookupId st.values) with
        | none => rw [hb] at hf; exact ih _ _ hf
        | some e =>
          rw [hb] at hf
          dsimp only at hf
          by_cases he : e.1 = key
          · rw [if_pos he] at hf
            have hp : pos = p := by simpa using hf
            subst hp
            obtain ⟨id, hv, hlook⟩ := Option.bind_eq_some.mp hb
            exact ⟨hu, id, e.2, hv, by rw [hlook, ← he]⟩
          · rw [if_neg he] at hf; exact ih _ _ hf
      · rw [if_neg hu] at hf
        by_cases hd : (getSlot st pos).deleted
        · simp only [hd, Bool.not_true, Bool.false_eq_true, if_false] at hf
          exact ih _ _ hf
        · simp only [Bool.not_eq_true] at hd
          simp [hd] at hf

/-- The slot the chain walk stops at satisfies the loop's exit condition:
no outgoing link, or a Tombstone. -/
theorem walkF_stop (st : HMState) :
    ∀ f pos d p dd, walkF st f pos d = some (p, dd) →
      (getSlot st p).next = none ∨ (getSlot st p).deleted = true := by
  intro f
  induction f with
  | zero => intro pos d p dd hw; exact absurd hw (by simp [walkF])
  | succ n ih =>
    intro pos d p dd hw
    rw [walkF] at hw
    cases hn : (getSlot st pos).next with
    | none =>
      rw [hn] at hw
      obtain ⟨h1, _⟩ : pos = p ∧ d = dd := by simpa using hw
      exact Or.inl (h1 ▸ hn)
    | some nx =>
      rw [hn] at hw
      dsimp only at hw
      by_cases hd : (getSlot st pos).deleted
      · rw [if_pos hd] at hw
        obtain ⟨h1, _⟩ : pos = p ∧ d = dd := by simpa using hw
        exact Or.inr (h1 ▸ hd)
      · rw [if_neg hd] at hw
        exact ih _ _ _ _ hw

/-- The slot the free-slot scan picks is not Occupied. -/
theorem scanF_pick_unused (st : HMState) :
    ∀ f nf d s, scanF st f nf d = some (ScanRes.pick s) →
      (getSlot st s).used = false := by
  intro f
  induction f with
  | zero => intro nf d s hs; exact absurd hs (by simp [scanF])
  | succ n ih =>
    intro nf d s hs
    rw [scanF] at hs
    by_cases hu : (getSlot st nf).used
    · rw [if_pos hu] at hs
      by_cases hr : st.element_count * 4 > st.primary_size ∧
          GetMaxLookups st.primary_size < d + 1
      · rw [if_pos hr] at hs; exact absurd hs (by simp)
      · rw [if_neg hr] at hs; exact ih _ _ _ hs
    · rw [if_neg hu] at hs
      have : nf = s := by simpa using hs
      simpa [this] using hu

/-- The free-slot scan stays inside the slot table. -/
theorem scanF_pick_lt (st : HMState)
    (hS : st.data.length = st.primary_size + st.cellar_size)
    (hP : 0 < st.primary_size) :
    ∀ f nf d s, nf < st.data.length →
      scanF st f nf d = some (ScanRes.pick s) → s < st.data.length := by
  intro f
  induction f with
  | zero => intro nf d s _ hs; exact absurd hs (by simp [scanF])
  | succ n ih =>
    intro nf d s hnf hs
    rw [scanF] at hs
    by_cases hu : (getSlot st nf).used
    · rw [if_pos hu] at hs
      by_cases hr : st.element_count * 4 > st.primary_size ∧
          GetMaxLookups st.primary_size < d + 1
      · rw [if_pos hr] at hs; exact absurd hs (by simp)
      · rw [if_neg hr] at hs
        refine ih _ _ _ ?_ hs
        by_cases h0 : nf = 0
        · rw [if_pos h0, hS]; omega
        · rw [if_neg h0]; omega
    · rw [if_neg hu] at hs
      have : nf = s := by simpa using hs
      exact this ▸ hnf

/-- Unfolding the backward scan trajectory one step at the front. -/
theorem scanSeq_succ_shift (st : HMState) (nf : Nat) :
    ∀ j, scanSeq st nf (j + 1) = scanSeq st (scanStep st nf) j := by
  intro j
  induction j with
  | zero => rfl
  | succ n ih => rw [scanSeq, ih, scanSeq]

/-- C6 (amended): when Exit B of insertion searches for a fresh slot, the
slot it picks is the first slot along the backward wrap-around scan from the
persisted cursor that is not Occupied — which may be a genuinely Empty slot
or a Tombstone, and may lie anywhere in the table, not only the cellar. -/
theorem scan_first_not_occupied (st : HMState) :
    ∀ f nf d s, scanF st f nf d = some (ScanRes.pick s) →
      (getSlot st s).used = false ∧
      ∃ j, s = scanSeq st nf j ∧
        ∀ i < j, (getSlot st (scanSeq st nf i)).used = true := by
  intro f
  induction f with
  | zero => intro nf d s hs; exact absurd hs (by simp [scanF])
  | succ n ih =>
    intro nf d s hs
    rw [scanF] at hs
    by_cases hu : (getSlot st nf).used
    · rw [if_pos hu] at hs
      by_cases hr : st.element_count * 4 > st.primary_size ∧
          GetMaxLookups st.primary_size < d + 1
      · rw [if_pos hr] at hs; exact absurd hs (by simp)
      · rw [if_neg hr] at hs
        obtain ⟨hun, j, hsj, hall⟩ := ih _ _ _ hs
        refine ⟨hun, j + 1, ?_, ?_⟩
        · rw [scanSeq_succ_shift]; exact hsj
        · intro i hi
          cases i with
          | zero => simpa [scanSeq] using hu
          | succ i' =>
            rw [scanSeq_succ_shift]
            exact hall i' (by omega)
    · rw [if_neg hu] at hs
      have hnfs : nf = s := by simpa using hs
      subst hnfs
      exact ⟨by simpa using hu, 0, rfl, fun i hi => absurd hi (Nat.not_lt_zero i)⟩

/-- Witness for `scan_first_not_occupied`: the Exit-B scan of the final
`insert(16)` of `cycleOps` picks slot 15, a not-Occupied (here: Tombstone)
slot, first along the backward scan from the cursor 16. -/
theorem scan_first_not_occupied_witness :
    (getSlot preCycleState 15).used = false ∧
    ∃ j, 15 = scanSeq preCycleState 16 j ∧
      ∀ i < j, (getSlot preCycleState (scanSeq preCycleState 16 i)).used = true :=
  scan_first_not_occupied preCycleState 100 16 0 15 (by decide)

/-- Folding slot resets preserves the table length. -/
theorem foldl_set_length :
    ∀ (ps : List Nat) (d : List Slot),
      (ps.foldl (fun d p => d.set p Slot.init) d).length = d.length := by
  intro ps
  induction ps with
  | nil => intro d; rfl
  | cons p rest ih => intro d; rw [List.foldl_cons, ih, List.length_set]

/-- Indices not in the reset list keep their slot across the resets. -/
theorem foldl_set_not_mem :
    ∀ (ps : List Nat) (d : List Slot) (i : Nat), i ∉ ps →
      (ps.foldl (fun d p => d.set p Slot.init) d).getD i Slot.init =
        d.getD i Slot.init := by
  intro ps
  induction ps with
  | nil => intro d i _; rfl
  | cons p rest ih =>
    intro d i hi
    have hpi : p ≠ i := by
      intro he
      exact hi (by rw [← he]; exact List.mem_cons_self p rest)
    rw [List.foldl_cons, ih _ _ (fun hm => hi (List.mem_cons_of_mem p hm))]
    simp [List.getD_eq_getElem?_getD, List.getElem?_set_ne hpi]

/-- Every index in the reset list ends holding a fresh slot. -/
theorem foldl_set_mem :
    ∀ (ps : List Nat) (d : List Slot) (i : Nat), i ∈ ps → i < d.length →
      (ps.foldl (fun d p => d.set p Slot.init) d).getD i Slot.init = Slot.init := by
  intro ps
  induction ps with
  | nil => intro d i hi _; exact absurd hi (List.not_mem_nil i)
  | cons p rest ih =>
    intro d i hi hlen
    rw [List.foldl_cons]
    by_cases hm : i ∈ rest
    · exact ih _ _ hm (by rw [List.length_set]; exact hlen)
    · have hip : i = p := by
        rcases List.mem_cons.mp hi with h | h
        · exact h
        · exact absurd h hm
      rw [foldl_set_not_mem rest _ i hm]
      subst hip
      simp [List.getD_eq_getElem?_getD, List.getElem?_set_eq hlen]

/-- C7 (amended): `clear()` empties the entry store and the position index,
zeroes the count, resets the scan cursor, and resets exactly the slots
recorded in `positions_` (the Occupied ones) to Empty; every other slot —
Tombstones in particular — is left exactly as it was, chain links included. -/
theorem clear_resets_exactly_occupied (st : HMState) :
    (clearM st).values = [] ∧ (clearM st).positions = [] ∧
    (clearM st).element_count = 0 ∧
    (clearM st).start_pos = st.primary_size + st.cellar_size - 1 ∧
    (∀ i ∈ st.positions, i < st.data.length → getSlot (clearM st) i = Slot.init) ∧
    (∀ i, i ∉ st.positions → getSlot (clearM st) i = getSlot st i) := by
  refine ⟨rfl, rfl, rfl, rfl, ?_, ?_⟩
  · intro i hi hlen
    exact foldl_set_mem st.positions st.data i hi hlen
  · intro i hi
    exact foldl_set_not_mem st.positions st.data i hi

/-- Witness for `clear_resets_exactly_occupied`: in `clearPre`, `clear()`
resets the Occupied slot 3 and leaves the Tombstone slot 0 untouched. -/
theorem clear_resets_exactly_occupied_witness :
    getSlot (clearM clearPre) 3 = Slot.init ∧
    getSlot (clearM clearPre) 0 = getSlot clearPre 0 :=
  ⟨(clear_resets_exactly_occupied clearPre).2.2.2.2.1 3 (by decide) (by decide),
   (clear_resets_exactly_occupied clearPre).2.2.2.2.2 0 (by decide)⟩

/-! ### Facts feeding the insertion specification -/

/-- `NextPrime` always lands in the searched tail of the prime table. -/
theorem NextPrime_mem (v : Nat) : NextPrime v ∈ PRIMES.drop 1 := by
  unfold NextPrime
  cases hf : (PRIMES.drop 1).dropLast.find? (fun p => v ≤ p) with
  | none => decide
  | some p => exact List.dropLast_subset _ (List.mem_of_find?_eq_some hf)

/-- Every entry of the searched tail of the prime table is at least 3. -/
theorem PRIMES_tail_ge (p : Nat) (hp : p ∈ PRIMES.drop 1) : 3 ≤ p := by
  have hall : (PRIMES.drop 1).all (fun q => decide (3 ≤ q)) = true := by decide
  simpa using List.all_eq_true.mp hall p hp

/-- `NextPrime` returns at least 3. -/
theorem NextPrime_ge3 (v : Nat) : 3 ≤ NextPrime v :=
  PRIMES_tail_ge _ (NextPrime_mem v)

/-- The (key, value) view distributes over appending entries. -/
theorem pairsOf_append (a b : List (Nat × Nat × Nat)) :
    pairsOf (a ++ b) = pairsOf a ++ pairsOf b := List.map_append _ a b

/-- Keys are the first components of the (key, value) view. -/
theorem keysOf_pairs (vs : List (Nat × Nat × Nat)) :
    keysOf vs = (pairsOf vs).map (fun e => e.1) := by
  simp [keysOf, pairsOf]

/-- Stepping the `Find` walk through an Occupied slot whose iterator does not
dereference (possible only off the states the program builds). -/
theorem FindF_step_nolookup (st : HMState) (k fuel pos : Nat) (s : Slot)
    (hs : getSlot st pos = s) (hu : s.used = true)
    (hl : s.value.bind (lookupId st.values) = none) :
    FindF st k (fuel + 1) (some pos) = FindF st k fuel s.next := by
  simp [FindF, hs, hu, hl]

/-- Stepping the `Find` walk into an Occupied slot holding the searched key. -/
theorem FindF_step_hit (st : HMState) (k fuel pos : Nat) (s : Slot)
    (e : Nat × Nat) (hs : getSlot st pos = s) (hu : s.used = true)
    (hl : s.value.bind (lookupId st.values) = some e) (he : e.1 = k) :
    FindF st k (fuel + 1) (some pos) = some (some pos) := by
  simp [FindF, hs, hu, hl, he]

/-- When every chain link stays in range, the walk ends in range. -/
theorem walkF_in_range (st : HMState) (hL : LinksOk st) :
    ∀ f pos d p dd, pos < st.data.length → walkF st f pos d = some (p, dd) →
      p < st.data.length := by
  intro f
  induction f with
  | zero => intro pos d p dd _ hw; exact absurd hw (by simp [walkF])
  | succ n ih =>
    intro pos d p dd hpos hw
    rw [walkF] at hw
    cases hn : (getSlot st pos).next with
    | none =>
      rw [hn] at hw
      obtain ⟨hpp, -⟩ : pos = p ∧ d = dd := by simpa using hw
      exact hpp ▸ hpos
    | some nx =>
      rw [hn] at hw
      dsimp only at hw
      by_cases hd : (getSlot st pos).deleted
      · rw [if_pos hd] at hw
        obtain ⟨hpp, -⟩ : pos = p ∧ d = dd := by simpa using hw
        exact hpp ▸ hpos
      · rw [if_neg hd] at hw
        exact ih nx (d + 1) p dd (hL pos nx hn) hw

/-- The freshly placed entry's id resolves to the inserted pair. -/
theorem lookupId_place (st : HMState) (kv : Nat × Nat) (hIds : IdsBelow st) :
    lookupId (st.values ++ [(st.nextId, kv.1, kv.2)]) st.nextId =
      some (kv.1, kv.2) := by
  rw [lookupId_append, lookupId_none_of_below st.values st.nextId hIds]
  dsimp only
  simp [lookupId]

/-- Reading back the slot an entry was just placed in. -/
theorem getSlot_placeEntry_self (st : HMState) (pos : Nat) (kv : Nat × Nat)
    (hpos : pos < st.data.length) :
    getSlot (placeEntry st pos kv).1 pos =
      { getSlot st pos with value := some st.nextId, used := true,
                            deleted := false, rev_pos := st.positions.length } := by
  unfold getSlot placeEntry
  simp [List.getD_eq_getElem?_getD, List.getElem?_set_eq hpos, getSlot]

/-- Placement leaves every other slot unchanged. -/
theorem getSlot_placeEntry_ne (st : HMState) (pos : Nat) (kv : Nat × Nat)
    (j : Nat) (hne : pos ≠ j) :
    getSlot (placeEntry st pos kv).1 j = getSlot st j := by
  unfold getSlot placeEntry
  simp [List.getD_eq_getElem?_getD, List.getElem?_set_ne hne]

/-- The placed slot exposes the inserted mapped value. -/
theorem valueMap_place (st : HMState) (pos : Nat) (kv : Nat × Nat)
    (hIds : IdsBelow st) (hpos : pos < st.data.length) :
    valueMap (placeEntry st pos kv).1 pos = some kv.2 := by
  unfold valueMap
  rw [getSlot_placeEntry_self st pos kv hpos]
  have hv : (placeEntry st pos kv).1.values =
      st.values ++ [(st.nextId, kv.1, kv.2)] := rfl
  rw [hv]
  simp [lookupId_place st kv hIds]

/-- Placing an entry preserves the structural invariants (the slot becomes
Occupied and keeps its `next` link; the fresh id stays below the bumped
counter). -/
theorem inv_placeEntry (st : HMState) (pos : Nat) (kv : Nat × Nat)
    (hInv : Inv st) : Inv (placeEntry st pos kv).1 := by
  obtain ⟨hEU, hIds, hSz, hLk, hSt⟩ := hInv
  have hlen : (placeEntry st pos kv).1.data.length = st.data.length := by
    show (st.data.set pos _).length = _
    exact List.length_set st.data pos _
  have hget : ∀ j, pos ≠ j →
      getSlot (placeEntry st pos kv).1 j = getSlot st j :=
    fun j hj => getSlot_placeEntry_ne st pos kv j hj
  have hself : pos < st.data.length →
      getSlot (placeEntry st pos kv).1 pos =
        { getSlot st pos with value := some st.nextId, used := true,
                              deleted := false,
                              rev_pos := st.positions.length } :=
    fun hp => getSlot_placeEntry_self st pos kv hp
  have hnoop : ¬ pos < st.data.length →
      getSlot (placeEntry st pos kv).1 pos = getSlot st pos := by
    intro hp
    show (st.data.set pos _).getD pos Slot.init = _
    rw [List.set_eq_of_length_le (le_of_not_lt hp)]
    rfl
  refine ⟨?_, ?_, ⟨by rw [hlen]; exact hSz.1, hSz.2⟩, ?_, ?_⟩
  · intro i hu hd
    by_cases hip : pos = i
    · subst hip
      by_cases hb : pos < st.data.length
      · rw [hself hb] at hu
        exact absurd hu (by simp)
      · rw [hnoop hb] at hu hd ⊢
        exact hEU pos hu hd
    · rw [hget i hip] at hu hd ⊢
      exact hEU i hu hd
  · intro e he
    have hv : (placeEntry st pos kv).1.values =
        st.values ++ [(st.nextId, kv.1, kv.2)] := rfl
    rw [hv] at he
    rcases List.mem_append.mp he with hmem | hmem
    · exact lt_trans (hIds e hmem) (Nat.lt_succ_self _)
    · have he2 : e = (st.nextId, kv.1, kv.2) := by simpa using hmem
      rw [he2]
      exact Nat.lt_succ_self _
  · intro i j hnext
    rw [hlen]
    by_cases hip : pos = i
    · subst hip
      by_cases hb : pos < st.data.length
      · rw [hself hb] at hnext
        exact hLk pos j hnext
      · rw [hnoop hb] at hnext
        exact hLk pos j hnext
    · rw [hget i hip] at hnext
      exact hLk i j hnext
  · show st.start_pos < _
    rw [hlen]
    exact hSt

/-- Linking the occupied chain tail `p` to the picked slot `s` (and moving the
scan cursor onto `s`) preserves the structural invariants. -/
theorem inv_linkTail (st : HMState) (p s : Nat) (hInv : Inv st)
    (hup : (getSlot st p).used = true) (hs : s < st.data.length) :
    Inv (setSlot { st with start_pos := s } p
      { getSlot { st with start_pos := s } p with next := some s }) := by
  obtain ⟨hEU, hIds, hSz, hLk, hSt⟩ := hInv
  have hgp : getSlot { st with start_pos := s } p = getSlot st p := rfl
  set stA := setSlot { st with start_pos := s } p
      { getSlot { st with start_pos := s } p with next := some s } with hstA
  have hlen : stA.data.length = st.data.length := List.length_set st.data p _
  have hget : ∀ j, p ≠ j → getSlot stA j = getSlot st j := by
    intro j hj
    show (st.data.set p _).getD j Slot.init = _
    simp [List.getD_eq_getElem?_getD, List.getElem?_set_ne hj, getSlot]
  have hself : p < st.data.length →
      getSlot stA p = { getSlot st p with next := some s } := by
    intro hb
    show (st.data.set p _).getD p Slot.init = _
    simp [List.getD_eq_getElem?_getD, List.getElem?_set_eq hb, getSlot]
  have hnoop : ¬ p < st.data.length → getSlot stA p = getSlot st p := by
    intro hb
    show (st.data.set p _).getD p Slot.init = _
    rw [List.set_eq_of_length_le (le_of_not_lt hb)]
    rfl
  refine ⟨?_, hIds, ⟨by rw [hlen]; exact hSz.1, hSz.2⟩, ?_, ?_⟩
  · intro i hu hd
    by_cases hip : p = i
    · subst hip
      by_cases hb : p < st.data.length
      · rw [hself hb] at hu
        exact absurd hu (by simpa using hup)
      · rw [hnoop hb] at hu hd ⊢
        exact hEU p hu hd
    · rw [hget i hip] at hu hd ⊢
      exact hEU i hu hd
  · intro i j hnext
    rw [hlen]
    by_cases hip : p = i
    · subst hip
      by_cases hb : p < st.data.length
      · rw [hself hb] at hnext
        have : some s = some j := hnext
        have hsj : s = j := by simpa using this
        exact hsj ▸ hs
      · rw [hnoop hb] at hnext
        exact hLk p j hnext
    · rw [hget i hip] at hnext
      exact hLk i j hnext
  · show s < stA.data.length
    rw [hlen]
    exact hs

/-- The `Find` walk in the post-placement state follows the pre-placement
chain walk: if `Find` (for the inserted key) succeeds with the inserted value
when started at the walk's stopping slot, it succeeds when started anywhere
earlier on the walk — interior slots are Occupied and hold other keys, except
that a stale iterator colliding with the fresh id hands back the inserted
value even earlier. -/
theorem findF_along_walk (st st' : HMState) (k v : Nat)
    (hEU : EmptyUnlinked st) (hkeys : ¬ k ∈ keysOf st.values)
    (hvals : st'.values = st.values ++ [(st.nextId, k, v)])
    (hpres : ∀ x, (getSlot st x).deleted = false → (getSlot st x).next ≠ none →
      getSlot st' x = getSlot st x) :
    ∀ f pos d p dd, walkF st f pos d = some (p, dd) →
      (∃ g q, FindF st' k g (some p) = some (some q) ∧ valueMap st' q = some v) →
      ∃ g q, FindF st' k g (some pos) = some (some q) ∧ valueMap st' q = some v := by
  intro f
  induction f with
  | zero => intro pos d p dd hw _; exact absurd hw (by simp [walkF])
  | succ n ih =>
    intro pos d p dd hw hbase
    rw [walkF] at hw
    cases hn : (getSlot st pos).next with
    | none =>
      rw [hn] at hw
      obtain ⟨hpp, -⟩ : pos = p ∧ d = dd := by simpa using hw
      exact hpp ▸ hbase
    | some nx =>
      rw [hn] at hw
      dsimp only at hw
      by_cases hd : (getSlot st pos).deleted
      · rw [if_pos hd] at hw
        obtain ⟨hpp, -⟩ : pos = p ∧ d = dd := by simpa using hw
        exact hpp ▸ hbase
      · rw [if_neg hd] at hw
        have hdp : (getSlot st pos).deleted = false := by simpa using hd
        have hused : (getSlot st pos).used = true := by
          by_contra hcon
          have hcon' : (getSlot st pos).used = false := by simpa using hcon
          have hnone := hEU pos hcon' hdp
          rw [hn] at hnone
          exact absurd hnone (by simp)
        have hps : getSlot st' pos = getSlot st pos :=
          hpres pos hdp (by rw [hn]; simp)
        have hused' : (getSlot st' pos).used = true := by rw [hps]; exact hused
        obtain ⟨g, q, hfind, hval⟩ := ih nx (d + 1) p dd hw hbase
        cases hlk : (getSlot st' pos).value.bind (lookupId st'.values) with
        | none =>
          refine ⟨g + 1, q, ?_, hval⟩
          rw [FindF_step_nolookup st' k g pos (getSlot st' pos) rfl hused' hlk,
            hps, hn]
          exact hfind
        | some e =>
          by_cases he : e.1 = k
          · refine ⟨g + 1, pos,
              FindF_step_hit st' k g pos (getSlot st' pos) e rfl hused' hlk he, ?_⟩
            have hv2 : valueMap st' pos = some e.2 := by
              unfold valueMap
              rw [hlk]
              rfl
            obtain ⟨id, hvid, hlook⟩ := Option.bind_eq_some.mp hlk
            rw [hvals, lookupId_append] at hlook
            cases hold : lookupId st.values id with
            | some e0 =>
              rw [hold] at hlook
              dsimp only at hlook
              have he0 : e0 = e := by simpa using hlook
              have hk : e.1 ∈ keysOf st.values :=
                he0 ▸ lookupId_key_mem st.values id e0 hold
              exact absurd (he ▸ hk) hkeys
            | none =>
              rw [hold] at hlook
              dsimp only at hlook
              by_cases hid : st.nextId = id
              · have hekv : e = (k, v) := by
                  unfold lookupId at hlook
                  simp [hid] at hlook
                  exact hlook.symm
                rw [hv2, hekv]
              · exact absurd hlook (by unfold lookupId; simp [hid])
          · refine ⟨g + 1, q, ?_, hval⟩
            rw [FindF_step_miss st' k g pos (getSlot st' pos) e rfl hused' hlk he,
              hps, hn]
            exact hfind

/-- A lookup hit on the inserted key in the appended store can only expose the
freshly inserted pair (the old store does not contain the key). -/
theorem lookup_hit_value (st' st : HMState) (k v : Nat) (e : Nat × Nat)
    (id : Nat) (hvals : st'.values = st.values ++ [(st.nextId, k, v)])
    (hkeys : ¬ k ∈ keysOf st.values)
    (hlook : lookupId st'.values id = some e) (he : e.1 = k) : e = (k, v) := by
  rw [hvals, lookupId_append] at hlook
  cases hold : lookupId st.values id with
  | some e0 =>
    rw [hold] at hlook
    dsimp only at hlook
    have he0 : e0 = e := by simpa using hlook
    have hk : e.1 ∈ keysOf st.values :=
      he0 ▸ lookupId_key_mem st.values id e0 hold
    exact absurd (he ▸ hk) hkeys
  | none =>
    rw [hold] at hlook
    dsimp only at hlook
    by_cases hid : st.nextId = id
    · unfold lookupId at hlook
      simp [hid] at hlook
      exact hlook.symm
    · exact absurd hlook (by unfold lookupId; simp [hid])

/-- `Find` hits immediately at the slot an entry was just placed in. -/
theorem FindF_at_place (st : HMState) (pos : Nat) (kv : Nat × Nat)
    (hIds : IdsBelow st) (hpos : pos < st.data.length) :
    FindF (placeEntry st pos kv).1 kv.1 1 (some pos) = some (some pos) := by
  have hs := getSlot_placeEntry_self st pos kv hpos
  have hv : (placeEntry st pos kv).1.values =
      st.values ++ [(st.nextId, kv.1, kv.2)] := rfl
  refine FindF_step_hit _ _ 0 pos _ (kv.1, kv.2) rfl ?_ ?_ rfl
  · rw [hs]
  · rw [hs]
    show lookupId (placeEntry st pos kv).1.values st.nextId = some (kv.1, kv.2)
    rw [hv]
    exact lookupId_place st kv hIds

/-- After a direct placement in the bucket slot, `find` succeeds with the
inserted value. -/
theorem findValM_after_direct (h : Nat → Nat) (st : HMState) (kv : Nat × Nat)
    (hInv : Inv st) :
    ∃ g, findValM h (placeEntry st (h kv.1 % st.primary_size) kv).1 kv.1 g =
      some (some kv.2) := by
  obtain ⟨hEU, hIds, hSz, hLk, hSt⟩ := hInv
  have hlt : h kv.1 % st.primary_size < st.data.length := by
    rw [hSz.1]
    exact lt_of_lt_of_le (Nat.mod_lt _ hSz.2) (Nat.le_add_right _ _)
  refine ⟨1, ?_⟩
  unfold findValM
  rw [show (placeEntry st (h kv.1 % st.primary_size) kv).1.primary_size =
    st.primary_size from rfl]
  rw [FindF_at_place st (h kv.1 % st.primary_size) kv hIds hlt]
  dsimp only
  rw [valueMap_place st (h kv.1 % st.primary_size) kv hIds hlt]

/-- After an Exit-A placement (reuse of the walk's not-Occupied stopping
slot), `find` succeeds with the inserted value. -/
theorem findValM_after_exitA (h : Nat → Nat) (st : HMState) (kv : Nat × Nat)
    (f p dd : Nat) (hInv : Inv st) (hkeys : ¬ kv.1 ∈ keysOf st.values)
    (hw : walkF st f (h kv.1 % st.primary_size) 0 = some (p, dd)) :
    ∃ g, findValM h (placeEntry st p kv).1 kv.1 g = some (some kv.2) := by
  obtain ⟨hEU, hIds, hSz, hLk, hSt⟩ := hInv
  have hpos : h kv.1 % st.primary_size < st.data.length := by
    rw [hSz.1]
    exact lt_of_lt_of_le (Nat.mod_lt _ hSz.2) (Nat.le_add_right _ _)
  have hp : p < st.data.length := walkF_in_range st hLk f _ 0 p dd hpos hw
  have hpres : ∀ x, (getSlot st x).deleted = false → (getSlot st x).next ≠ none →
      getSlot (placeEntry st p kv).1 x = getSlot st x := by
    intro x hxd hxn
    have hxp : p ≠ x := by
      intro he
      rcases walkF_stop st f _ 0 p dd hw with hc | hc
      · rw [he] at hc; exact hxn hc
      · rw [he] at hc; rw [hc] at hxd; exact absurd hxd (by simp)
    exact getSlot_placeEntry_ne st p kv x hxp
  have hbase : ∃ g q,
      FindF (placeEntry st p kv).1 kv.1 g (some p) = some (some q) ∧
      valueMap (placeEntry st p kv).1 q = some kv.2 :=
    ⟨1, p, FindF_at_place st p kv hIds hp, valueMap_place st p kv hIds hp⟩
  obtain ⟨g, q, hfind, hval⟩ :=
    findF_along_walk st (placeEntry st p kv).1 kv.1 kv.2 hEU hkeys rfl hpres
      f _ 0 p dd hw hbase
  refine ⟨g, ?_⟩
  unfold findValM
  rw [show (placeEntry st p kv).1.primary_size = st.primary_size from rfl]
  rw [hfind]
  dsimp only
  rw [hval]

/-- After an Exit-B placement (link the Occupied chain tail `p` to the picked
slot `s` and place there), `find` succeeds with the inserted value. -/
theorem findValM_after_exitB (h : Nat → Nat) (st : HMState) (kv : Nat × Nat)
    (f p dd s : Nat) (hInv : Inv st) (hkeys : ¬ kv.1 ∈ keysOf st.values)
    (hw : walkF st f (h kv.1 % st.primary_size) 0 = some (p, dd))
    (hup : (getSlot st p).used = true)
    (hsu : (getSlot st s).used = false) (hs : s < st.data.length) :
    ∃ g, findValM h
      (placeEntry (setSlot { st with start_pos := s } p
        { getSlot { st with start_pos := s } p with next := some s }) s kv).1
      kv.1 g = some (some kv.2) := by
  obtain ⟨hEU, hIds, hSz, hLk, hSt⟩ := hInv
  set stA := setSlot { st with start_pos := s } p
    { getSlot { st with start_pos := s } p with next := some s } with hstA
  set st' := (placeEntry stA s kv).1 with hst'
  have hpos : h kv.1 % st.primary_size < st.data.length := by
    rw [hSz.1]
    exact lt_of_lt_of_le (Nat.mod_lt _ hSz.2) (Nat.le_add_right _ _)
  have hp : p < st.data.length := walkF_in_range st hLk f _ 0 p dd hpos hw
  have hps : p ≠ s := by
    intro he
    rw [he] at hup
    rw [hup] at hsu
    exact absurd hsu (by simp)
  have hlenA : stA.data.length = st.data.length := List.length_set st.data p _
  have hsA : s < stA.data.length := by rw [hlenA]; exact hs
  have hIdsA : IdsBelow stA := hIds
  have hgA : ∀ x, p ≠ x → getSlot stA x = getSlot st x := by
    intro x hx
    show (st.data.set p _).getD x Slot.init = _
    simp [List.getD_eq_getElem?_getD, List.getElem?_set_ne hx, getSlot]
  have hgAp : getSlot stA p = { getSlot st p with next := some s } := by
    show (st.data.set p _).getD p Slot.init = _
    simp [List.getD_eq_getElem?_getD, List.getElem?_set_eq hp, getSlot]
  have hvals : st'.values = st.values ++ [(st.nextId, kv.1, kv.2)] := rfl
  have hg'p : getSlot st' p = { getSlot st p with next := some s } := by
    rw [hst', getSlot_placeEntry_ne stA s kv p (fun he => hps he.symm), hgAp]
  have hup' : (getSlot st' p).used = true := by rw [hg'p]; exact hup
  have hnx : (getSlot st' p).next = some s := by rw [hg'p]
  have hpres : ∀ x, (getSlot st x).deleted = false → (getSlot st x).next ≠ none →
      getSlot st' x = getSlot st x := by
    intro x hxd hxn
    have hxp : p ≠ x := by
      intro he
      rcases walkF_stop st f _ 0 p dd hw with hc | hc
      · rw [he] at hc; exact hxn hc
      · rw [he] at hc; rw [hc] at hxd; exact absurd hxd (by simp)
    have hxs : s ≠ x := by
      intro he
      by_cases hsd : (getSlot st s).deleted
      · rw [he] at hsd; rw [hsd] at hxd; exact absurd hxd (by simp)
      · have hsd' : (getSlot st s).deleted = false := by simpa using hsd
        have := hEU s hsu hsd'
        rw [he] at this
        exact hxn this
    rw [hst', getSlot_placeEntry_ne stA s kv x hxs]
    exact hgA x hxp
  have hbase : ∃ g q, FindF st' kv.1 g (some p) = some (some q) ∧
      valueMap st' q = some kv.2 := by
    cases hlk : (getSlot st' p).value.bind (lookupId st'.values) with
    | none =>
      refine ⟨2, s, ?_, valueMap_place stA s kv hIdsA hsA⟩
      rw [FindF_step_nolookup st' kv.1 1 p _ rfl hup' hlk, hnx]
      exact FindF_at_place stA s kv hIdsA hsA
    | some e =>
      by_cases he : e.1 = kv.1
      · refine ⟨1, p, FindF_step_hit st' kv.1 0 p _ e rfl hup' hlk he, ?_⟩
        obtain ⟨id, hvid, hlook⟩ := Option.bind_eq_some.mp hlk
        have hekv : e = (kv.1, kv.2) :=
          lookup_hit_value st' st kv.1 kv.2 e id hvals hkeys hlook he
        unfold valueMap
        rw [hlk, hekv]
        rfl
      · refine ⟨2, s, ?_, valueMap_place stA s kv hIdsA hsA⟩
        rw [FindF_step_miss st' kv.1 1 p _ e rfl hup' hlk he, hnx]
        exact FindF_at_place stA s kv hIdsA hsA
  obtain ⟨g, q, hfind, hval⟩ :=
    findF_along_walk st st' kv.1 kv.2 hEU hkeys hvals hpres f _ 0 p dd hw hbase
  refine ⟨g, ?_⟩
  unfold findValM
  rw [show st'.primary_size = st.primary_size from rfl]
  rw [hfind]
  dsimp only
  rw [hval]

/-- Placement appends exactly the inserted pair to the iteration sequence. -/
theorem pairsOf_place (st : HMState) (pos : Nat) (kv : Nat × Nat) :
    pairsOf (placeEntry st pos kv).1.values = pairsOf st.values ++ [kv] := by
  show pairsOf (st.values ++ [(st.nextId, kv.1, kv.2)]) = _
  rw [pairsOf_append]
  rfl

/-- A state whose slot table is freshly allocated (and whose entry store is
empty) satisfies the structural invariants. -/
theorem inv_of_fresh_data (st : HMState)
    (hdata : st.data = List.replicate (st.primary_size + st.cellar_size) Slot.init)
    (hP : 0 < st.primary_size)
    (hstart : st.start_pos = st.primary_size + st.cellar_size - 1)
    (hvals : st.values = []) : Inv st := by
  have hget : ∀ i, getSlot st i = Slot.init := by
    intro i
    unfold getSlot
    rw [hdata, List.getD_eq_getElem?_getD, List.getElem?_replicate]
    by_cases hi : i < st.primary_size + st.cellar_size <;> simp [hi]
  refine ⟨?_, ?_, ⟨?_, hP⟩, ?_, ?_⟩
  · intro i _ _
    rw [hget i]
    rfl
  · intro e he
    rw [hvals] at he
    exact absurd he (List.not_mem_nil e)
  · rw [hdata]
    exact List.length_replicate _ _
  · intro i j hnext
    rw [hget i] at hnext
    exact absurd hnext (by simp [Slot.init])
  · show st.start_pos < st.data.length
    rw [hstart, hdata, List.length_replicate]
    omega

/-- The bundled per-fuel specification of the `Insert`/`Rehash`/reinsertion
engine: (ins) insertion appends exactly the inserted pair to the iteration
sequence, keeps or re-tables the primary size, preserves the structural
invariants, and — for the hashed bucket of a key absent from the store —
leaves the key findable with the inserted value, which is also the value the
placed slot exposes; (reh) a rehash preserves the iteration sequence, draws
the primary size from the prime table and establishes the invariants
outright; (fold) the reinsertion loop appends its list of pairs. -/
theorem execF_spec (h : Nat → Nat) : ∀ fuel,
    (∀ st kv pos st' ppos,
      execF h fuel (HCall.ins st kv pos) = some (st', ppos) →
      pairsOf st'.values = pairsOf st.values ++ [kv] ∧
      (st'.primary_size = st.primary_size ∨ st'.primary_size ∈ PRIMES.drop 1) ∧
      (Inv st → Inv st') ∧
      (Inv st → ¬ kv.1 ∈ keysOf st.values → pos = h kv.1 % st.primary_size →
        (∃ g, findValM h st' kv.1 g = some (some kv.2)) ∧
        valueMap st' ppos = some kv.2)) ∧
    (∀ st m st' z, execF h fuel (HCall.reh st m) = some (st', z) →
      pairsOf st'.values = pairsOf st.values ∧
      st'.primary_size ∈ PRIMES.drop 1 ∧ Inv st') ∧
    (∀ st l st' z, execF h fuel (HCall.fold st l) = some (st', z) →
      pairsOf st'.values = pairsOf st.values ++ l ∧
      (st'.primary_size = st.primary_size ∨ st'.primary_size ∈ PRIMES.drop 1) ∧
      (Inv st → Inv st')) := by
  intro fuel
  induction fuel with
  | zero =>
    refine ⟨?_, ?_, ?_⟩
    · intro st kv pos st' ppos hx
      exact absurd hx (by simp [execF])
    · intro st m st' z hx
      exact absurd hx (by simp [execF])
    · intro st l st' z hx
      exact absurd hx (by simp [execF])
  | succ n ih =>
    obtain ⟨ihIns, ihReh, ihFold⟩ := ih
    have hInsP : ∀ st kv pos st' ppos,
        execF h (n + 1) (HCall.ins st kv pos) = some (st', ppos) →
        pairsOf st'.values = pairsOf st.values ++ [kv] ∧
        (st'.primary_size = st.primary_size ∨ st'.primary_size ∈ PRIMES.drop 1) ∧
        (Inv st → Inv st') ∧
        (Inv st → ¬ kv.1 ∈ keysOf st.values → pos = h kv.1 % st.primary_size →
          (∃ g, findValM h st' kv.1 g = some (some kv.2)) ∧
          valueMap st' ppos = some kv.2) := by
      intro st kv pos st' ppos hx
      have bodySpec : ∀ stM posM st' ppos,
          (if (getSlot stM posM).used then
            match walkF stM n posM 0 with
            | none => none
            | some (p, distance) =>
              if (getSlot stM p).used then
                match scanF stM n stM.start_pos distance with
                | none => none
                | some ScanRes.regrow => do
                  let r ← execF h n (HCall.reh stM (stM.primary_size * 2))
                  execF h n (HCall.ins r.1 kv (h kv.1 % r.1.primary_size))
                | some (ScanRes.pick next_free) =>
                  let st1 := { stM with start_pos := next_free }
                  let st2 := setSlot st1 p
                    { getSlot st1 p with next := some next_free }
                  some (placeEntry st2 next_free kv)
              else some (placeEntry stM p kv)
          else some (placeEntry stM posM kv)) = some (st', ppos) →
          pairsOf st'.values = pairsOf stM.values ++ [kv] ∧
          (st'.primary_size = stM.primary_size ∨
            st'.primary_size ∈ PRIMES.drop 1) ∧
          (Inv stM → Inv st') ∧
          (Inv stM → ¬ kv.1 ∈ keysOf stM.values →
            posM = h kv.1 % stM.primary_size →
            (∃ g, findValM h st' kv.1 g = some (some kv.2)) ∧
            valueMap st' ppos = some kv.2) := by
        intro stM posM st' ppos hbody
        by_cases hu : (getSlot stM posM).used
        · rw [if_pos hu] at hbody
          cases hwk : walkF stM n posM 0 with
          | none =>
            rw [hwk] at hbody
            exact absurd hbody (by simp)
          | some pd =>
            obtain ⟨p, dd⟩ := pd
            rw [hwk] at hbody
            dsimp only at hbody
            by_cases hup : (getSlot stM p).used
            · rw [if_pos hup] at hbody
              cases hsc : scanF stM n stM.start_pos dd with
              | none =>
                rw [hsc] at hbody
                exact absurd hbody (by simp)
              | some sr =>
                rw [hsc] at hbody
                cases sr with
                | regrow =>
                  cases hreh : execF h n (HCall.reh stM (stM.primary_size * 2)) with
                  | none =>
                    rw [hreh] at hbody
                    exact absurd hbody (by simp)
                  | some r =>
                    rw [hreh] at hbody
                    simp only [Option.bind_eq_bind, Option.some_bind] at hbody
                    obtain ⟨hpairs2, hprim2, hInv2⟩ := ihReh stM _ r.1 r.2 hreh
                    obtain ⟨hpairs3, hprim3, hInv3, hfind3⟩ :=
                      ihIns r.1 kv _ st' ppos hbody
                    refine ⟨?_, ?_, ?_, ?_⟩
                    · rw [hpairs3, hpairs2]
                    · cases hprim3 with
                      | inl hl => exact Or.inr (hl ▸ hprim2)
                      | inr hr => exact Or.inr hr
                    · intro _
                      exact hInv3 hInv2
                    · intro _ hkeysM _
                      refine hfind3 hInv2 ?_ rfl
                      rw [keysOf_pairs, hpairs2, ← keysOf_pairs]
                      exact hkeysM
                | pick s =>
                  dsimp only at hbody
                  have hEq : placeEntry (setSlot { stM with start_pos := s } p
                      { getSlot { stM with start_pos := s } p with
                        next := some s }) s kv = (st', ppos) := by
                    simpa using hbody
                  have hst' : st' = (placeEntry (setSlot { stM with start_pos := s } p
                      { getSlot { stM with start_pos := s } p with
                        next := some s }) s kv).1 := (congrArg Prod.fst hEq).symm
                  have hppos : ppos = s := (congrArg Prod.snd hEq).symm
                  refine ⟨?_, ?_, ?_, ?_⟩
                  · rw [hst', pairsOf_place]
                    rfl
                  · rw [hst']
                    exact Or.inl rfl
                  · intro hInvM
                    have hs : s < stM.data.length :=
                      scanF_pick_lt stM hInvM.2.2.1.1 hInvM.2.2.1.2 n
                        stM.start_pos dd s hInvM.2.2.2.2 hsc
                    rw [hst']
                    exact inv_placeEntry _ s kv (inv_linkTail stM p s hInvM hup hs)
                  · intro hInvM hkeysM hposM
                    have hs : s < stM.data.length :=
                      scanF_pick_lt stM hInvM.2.2.1.1 hInvM.2.2.1.2 n
                        stM.start_pos dd s hInvM.2.2.2.2 hsc
                    have hsu : (getSlot stM s).used = false :=
                      scanF_pick_unused stM n stM.start_pos dd s hsc
                    subst hposM
                    refine ⟨?_, ?_⟩
                    · rw [hst']
                      exact findValM_after_exitB h stM kv n p dd s hInvM hkeysM
                        hwk hup hsu hs
                    · rw [hst', hppos]
                      refine valueMap_place _ s kv hInvM.2.1 ?_
                      simpa [setSlot] using hs
            · rw [if_neg hup] at hbody
              have hEq : placeEntry stM p kv = (st', ppos) := by simpa using hbody
              have hst' : st' = (placeEntry stM p kv).1 :=
                (congrArg Prod.fst hEq).symm
              have hppos : ppos = p := (congrArg Prod.snd hEq).symm
              refine ⟨?_, ?_, ?_, ?_⟩
              · rw [hst', pairsOf_place]
              · rw [hst']
                exact Or.inl rfl
              · intro hInvM
                rw [hst']
                exact inv_placeEntry stM p kv hInvM
              · intro hInvM hkeysM hposM
                subst hposM
                have hpos : h kv.1 % stM.primary_size < stM.data.length := by
                  rw [hInvM.2.2.1.1]
                  exact lt_of_lt_of_le (Nat.mod_lt _ hInvM.2.2.1.2)
                    (Nat.le_add_right _ _)
                have hp : p < stM.data.length :=
                  walkF_in_range stM hInvM.2.2.2.1 n _ 0 p dd hpos hwk
                refine ⟨?_, ?_⟩
                · rw [hst']
                  exact findValM_after_exitA h stM kv n p dd hInvM hkeysM hwk
                · rw [hst', hppos]
                  exact valueMap_place stM p kv hInvM.2.1 hp
        · rw [if_neg hu] at hbody
          have hEq : placeEntry stM posM kv = (st', ppos) := by simpa using hbody
          have hst' : st' = (placeEntry stM posM kv).1 :=
            (congrArg Prod.fst hEq).symm
          have hppos : ppos = posM := (congrArg Prod.snd hEq).symm
          refine ⟨?_, ?_, ?_, ?_⟩
          · rw [hst', pairsOf_place]
          · rw [hst']
            exact Or.inl rfl
          · intro hInvM
            rw [hst']
            exact inv_placeEntry stM posM kv hInvM
          · intro hInvM hkeysM hposM
            subst hposM
            have hpos : h kv.1 % stM.primary_size < stM.data.length := by
              rw [hInvM.2.2.1.1]
              exact lt_of_lt_of_le (Nat.mod_lt _ hInvM.2.2.1.2)
                (Nat.le_add_right _ _)
            refine ⟨?_, ?_⟩
            · rw [hst']
              exact findValM_after_direct h stM kv hInvM
            · rw [hst', hppos]
              exact valueMap_place stM _ kv hInvM.2.1 hpos
      rw [execF] at hx
      by_cases hc : st.element_count * 2 > st.primary_size
      · rw [if_pos hc] at hx
        cases hreh : execF h n (HCall.reh st (st.primary_size * 2)) with
        | none =>
          rw [hreh] at hx
          exact absurd hx (by simp)
        | some r =>
          rw [hreh] at hx
          simp only [Option.bind_eq_bind, Option.some_bind, Option.pure_def] at hx
          obtain ⟨hpairs2, hprim2, hInv2⟩ := ihReh st _ r.1 r.2 hreh
          obtain ⟨hpairsB, hprimB, hInvB, hfindB⟩ :=
            bodySpec r.1 (h kv.1 % r.1.primary_size) st' ppos hx
          refine ⟨?_, ?_, ?_, ?_⟩
          · rw [hpairsB, hpairs2]
          · cases hprimB with
            | inl hl => exact Or.inr (hl ▸ hprim2)
            | inr hr => exact Or.inr hr
          · intro _
            exact hInvB hInv2
          · intro _ hkeysM _
            refine hfindB hInv2 ?_ rfl
            rw [keysOf_pairs, hpairs2, ← keysOf_pairs]
            exact hkeysM
      · rw [if_neg hc] at hx
        simp only [Option.bind_eq_bind, Option.pure_def, Option.some_bind] at hx
        exact bodySpec st pos st' ppos hx
    refine ⟨hInsP, ?_, ?_⟩
    · intro st m st' z hx
      rw [execF] at hx
      by_cases he : st.values.isEmpty
      · rw [if_pos he] at hx
        injection hx with hpair
        injection hpair with h1 h2
        refine ⟨?_, ?_, ?_⟩
        · rw [← h1]
        · rw [← h1]
          exact NextPrime_mem m
        · rw [← h1]
          refine inv_of_fresh_data _ rfl ?_ rfl ?_
          · show 0 < NextPrime m
            have := NextPrime_ge3 m
            omega
          · show st.values = []
            exact List.isEmpty_iff.mp he
      · rw [if_neg he] at hx
        obtain ⟨hpairsF, hprimF, hInvF⟩ := ihFold _ _ st' z hx
        have hInv0 : Inv { st with
            element_count := 0, primary_size := NextPrime m,
            cellar_size := cellarOf (NextPrime m),
            start_pos := NextPrime m + cellarOf (NextPrime m) - 1,
            data := List.replicate (NextPrime m + cellarOf (NextPrime m)) Slot.init,
            values := [], positions := [] } := by
          refine inv_of_fresh_data _ rfl ?_ rfl rfl
          show 0 < NextPrime m
          have := NextPrime_ge3 m
          omega
        refine ⟨?_, ?_, hInvF hInv0⟩
        · rw [hpairsF]
          rfl
        · cases hprimF with
          | inl hl => rw [hl]; exact NextPrime_mem m
          | inr hr => exact hr
    · intro st l st' z hx
      cases l with
      | nil =>
        rw [execF] at hx
        injection hx with hpair
        injection hpair with h1 h2
        refine ⟨by rw [← h1]; simp, Or.inl (by rw [← h1]), fun hI => h1 ▸ hI⟩
      | cons kv rest =>
        rw [execF] at hx
        cases hins : execF h n (HCall.ins st kv (h kv.1 % st.primary_size)) with
        | none =>
          rw [hins] at hx
          exact absurd hx (by simp)
        | some r =>
          rw [hins] at hx
          simp only [Option.bind_eq_bind, Option.some_bind] at hx
          obtain ⟨hpairs1, hprim1, hInv1, -⟩ := ihIns st kv _ r.1 r.2 hins
          obtain ⟨hpairs2, hprim2, hInv2⟩ := ihFold r.1 rest st' z hx
          refine ⟨?_, ?_, fun hI => hInv2 (hInv1 hI)⟩
          · rw [hpairs2, hpairs1]
            simp
          · cases hprim2 with
            | inl hl =>
              cases hprim1 with
              | inl h1 => exact Or.inl (hl.trans h1)
              | inr h1 => exact Or.inr (hl ▸ h1)
            | inr hr => exact Or.inr hr

/-- The default-constructed map satisfies the structural invariants. -/
theorem inv_initState : Inv initState :=
  inv_of_fresh_data initState rfl (by decide) rfl rfl

/-- C3 (amended): `operator[]` on a key the `Find` walk locates returns the
slot's existing value and leaves the map unchanged; on a key absent from the
entry store, whenever the operation completes (which the reachable cyclic
states can prevent — see the counterexample), it returns the
default-constructed value 0 and a subsequent `find` succeeds yielding that
default. -/
theorem opIndex_spec (h : Nat → Nat) (st : HMState) (key fuel : Nat) :
    (∀ p, FindF st key fuel (some (h key % st.primary_size)) = some (some p) →
      opIndexM h st key fuel = some (st, (valueMap st p).getD 0)) ∧
    (Inv st → ¬ key ∈ keysOf st.values →
      ∀ st' v, opIndexM h st key fuel = some (st', v) →
      v = 0 ∧ ∃ g, findValM h st' key g = some (some 0)) := by
  constructor
  · intro p hf
    unfold opIndexM
    rw [hf]
  · intro hInv hkeys st' v hop
    unfold opIndexM at hop
    cases hf : FindF st key fuel (some (h key % st.primary_size)) with
    | none =>
      rw [hf] at hop
      exact absurd hop (by simp)
    | some o =>
      cases o with
      | some p =>
        obtain ⟨-, id, vv, -, hlook⟩ := FindF_found st key fuel _ p hf
        exact absurd (lookupId_key_mem st.values id (key, vv) hlook) hkeys
      | none =>
        rw [hf] at hop
        cases hins : InsertF h fuel st (key, 0) (h key % st.primary_size) with
        | none =>
          rw [hins] at hop
          exact absurd hop (by simp)
        | some r =>
          rw [hins] at hop
          simp only [Option.bind_eq_bind, Option.some_bind] at hop
          injection hop with hpair
          injection hpair with h1 h2
          obtain ⟨-, -, -, hfind⟩ :=
            (execF_spec h fuel).1 st (key, 0) _ r.1 r.2 hins
          obtain ⟨⟨g, hg⟩, hvm⟩ := hfind hInv hkeys rfl
          constructor
          · rw [← h2, hvm]
            rfl
          · exact ⟨g, h1 ▸ hg⟩

/-- Witness for `opIndex_spec`: `operator[](0)` on the default-constructed
map inserts the default value and leaves key 0 findable with it. -/
theorem opIndex_spec_witness :
    (0 : Nat) = 0 ∧ ∃ g, findValM hId bState 0 g = some (some 0) :=
  (opIndex_spec hId initState 0 50).2 inv_initState (by decide) bState 0
    (by decide)

/-- Shape of a completed `erase`: either the key was not found and the state
is untouched, or the entry of the located slot is unlinked from the store
(and the table sizing is untouched). -/
theorem eraseM_shape (h : Nat → Nat) (st : HMState) (k fuel : Nat)
    (st' : HMState) (he : eraseM h st k fuel = some st') :
    st' = st ∨ ∃ p, FindF st k fuel (some (h k % st.primary_size)) = some (some p) ∧
      st'.values = (match (getSlot st p).value with
        | some id => eraseById st.values id
        | none => st.values) ∧
      st'.primary_size = st.primary_size := by
  unfold eraseM at he
  cases hf : FindF st k fuel (some (h k % st.primary_size)) with
  | none =>
    rw [hf] at he
    exact absurd he (by simp)
  | some o =>
    cases o with
    | none =>
      rw [hf] at he
      dsimp only at he
      exact Or.inl (Option.some_inj.mp he).symm
    | some p =>
      rw [hf] at he
      dsimp only at he
      right
      have hval : (getSlot (setSlot st (st.positions.getLastD 0)
          { getSlot st (st.positions.getLastD 0) with
            rev_pos := (getSlot st p).rev_pos }) p).value =
          (getSlot st p).value := by
        by_cases hbp : st.positions.getLastD 0 = p
        · by_cases hb : st.positions.getLastD 0 < st.data.length
          · rw [hbp] at hb ⊢
            rw [getSlot_setSlot_self st p _ hb]
          · show ((st.data.set _ _).getD p Slot.init).value = _
            rw [List.set_eq_of_length_le (le_of_not_lt hb)]
            rfl
        · rw [getSlot_setSlot_ne st _ p _ hbp]
      have hrec := Option.some_inj.mp he
      have hv : st'.values = (match (getSlot (setSlot st (st.positions.getLastD 0)
          { getSlot st (st.positions.getLastD 0) with
            rev_pos := (getSlot st p).rev_pos }) p).value with
          | some id => eraseById st.values id
          | none => st.values) := by
        rw [← hrec]
        rfl
      have hprim : st'.primary_size = st.primary_size := by
        rw [← hrec]
        rfl
      rw [hval] at hv
      exact ⟨p, rfl, hv, hprim⟩

/-- C9: the iteration sequence (`begin()`..`end()`, i.e. the entry store in
insertion order) evolves as the spec describes: a completed public `insert`
either appends exactly the new pair at the end — rehashes triggered inside
the insertion included, since the rebuild reinserts the stored pairs in
order — or (key already present) leaves the map untouched; a completed
`erase` either leaves the map untouched or removes exactly one entry holding
the erased key, preserving the relative order of all surviving entries. -/
theorem iteration_insertion_order (h : Nat → Nat) (st : HMState) (fuel : Nat) :
    (∀ k v st', pubInsertM h st (k, v) fuel = some st' →
      pairsOf st'.values = pairsOf st.values ++ [(k, v)] ∨ st' = st) ∧
    (∀ k st', eraseM h st k fuel = some st' →
      st' = st ∨ ∃ pre e post, st.values = pre ++ e :: post ∧ e.2.1 = k ∧
        st'.values = pre ++ post) := by
  constructor
  · intro k v st' hp
    unfold pubInsertM at hp
    cases hf : FindF st k fuel (some (h k % st.primary_size)) with
    | none =>
      rw [hf] at hp
      exact absurd hp (by simp)
    | some o =>
      cases o with
      | some p =>
        rw [hf] at hp
        exact Or.inr (Option.some_inj.mp hp).symm
      | none =>
        rw [hf] at hp
        cases hins : InsertF h fuel st (k, v) (h k % st.primary_size) with
        | none =>
          rw [hins] at hp
          exact absurd hp (by simp)
        | some r =>
          rw [hins] at hp
          have hst' : r.1 = st' := by simpa using hp
          left
          rw [← hst']
          exact ((execF_spec h fuel).1 st (k, v) _ r.1 r.2 hins).1
  · intro k st' he
    rcases eraseM_shape h st k fuel st' he with h1 | ⟨p, hf, hv, -⟩
    · exact Or.inl h1
    · right
      obtain ⟨-, id, vv, hvid, hlook⟩ := FindF_found st k fuel _ p hf
      rw [hvid] at hv
      dsimp only at hv
      obtain ⟨pre, en, post, hsplit, -, hee, her⟩ :=
        eraseById_split st.values id (k, vv) hlook
      refine ⟨pre, en, post, hsplit, ?_, ?_⟩
      · rw [hee]
      · rw [hv, her]

/-- Witness for `iteration_insertion_order`: inserting (0, 0) into the
default-constructed map appends exactly that pair to the iteration
sequence. -/
theorem iteration_insertion_order_witness :
    pairsOf bState.values = pairsOf initState.values ++ [(0, 0)] ∨
      bState = initState :=
  (iteration_insertion_order hId initState 50).1 0 0 bState (by decide)

/-- C8 (amended): copy-assignment `b = a` first compares the two entry
sequences.  When they are equal it returns `b` untouched (no rebuild, no
size adoption — see the counterexample); when they differ, `b` is cleared,
takes `a`'s primary/cellar sizing for a fresh table, and `a`'s entries are
reinserted in order, so any completed assignment leaves `b` holding exactly
`a`'s (key, value) sequence. -/
theorem assign_rebuild_spec (h : Nat → Nat) (a b : HMState) (fuel : Nat) :
    (pairsOf b.values = pairsOf a.values → assignM h b a fuel = some b) ∧
    (∀ b', assignM h b a fuel = some b' →
      pairsOf b'.values = pairsOf a.values) := by
  constructor
  · intro heq
    unfold assignM
    rw [if_pos heq]
  · intro b' hass
    unfold assignM at hass
    by_cases heq : pairsOf b.values = pairsOf a.values
    · rw [if_pos heq] at hass
      rw [← Option.some_inj.mp hass, heq]
    · rw [if_neg heq] at hass
      rw [rehashFold] at hass
      cases hex : execF h fuel (HCall.fold { b with
          values := [], positions := [], element_count := 0,
          primary_size := a.primary_size, cellar_size := a.cellar_size,
          start_pos := a.primary_size + a.cellar_size - 1,
          data := List.replicate (a.primary_size + a.cellar_size) Slot.init }
          (pairsOf a.values)) with
      | none =>
        rw [hex] at hass
        exact absurd hass (by simp)
      | some r =>
        rw [hex] at hass
        have hb' : r.1 = b' := by simpa using hass
        obtain ⟨hpairs, -, -⟩ := (execF_spec h fuel).2.2 _ _ r.1 r.2 hex
        rw [← hb', hpairs]
        rfl

/-- Witness for `assign_rebuild_spec`: `aState` and `bState` hold equal
contents, so assigning `aState` to `bState` returns `bState` untouched. -/
theorem assign_rebuild_spec_witness :
    assignM hId bState aState 50 = some bState :=
  (assign_rebuild_spec hId aState bState 50).1 (by decide)

/-- A completed public `insert` keeps the primary size or re-tables it. -/
theorem pubInsertM_primary (h : Nat → Nat) (st : HMState) (kv : Nat × Nat)
    (fuel : Nat) (st' : HMState) (hp : pubInsertM h st kv fuel = some st') :
    st'.primary_size = st.primary_size ∨ st'.primary_size ∈ PRIMES.drop 1 := by
  unfold pubInsertM at hp
  cases hf : FindF st kv.1 fuel (some (h kv.1 % st.primary_size)) with
  | none =>
    rw [hf] at hp
    exact absurd hp (by simp)
  | some o =>
    cases o with
    | some p =>
      rw [hf] at hp
      exact Or.inl ((Option.some_inj.mp hp) ▸ rfl)
    | none =>
      rw [hf] at hp
      cases hins : InsertF h fuel st kv (h kv.1 % st.primary_size) with
      | none =>
        rw [hins] at hp
        exact absurd hp (by simp)
      | some r =>
        rw [hins] at hp
        have hst' : r.1 = st' := by simpa using hp
        rw [← hst']
        exact ((execF_spec h fuel).1 st kv _ r.1 r.2 hins).2.1

/-- A completed `operator[]` keeps the primary size or re-tables it. -/
theorem opIndexM_primary (h : Nat → Nat) (st : HMState) (key fuel : Nat)
    (st' : HMState) (v : Nat) (ho : opIndexM h st key fuel = some (st', v)) :
    st'.primary_size = st.primary_size ∨ st'.primary_size ∈ PRIMES.drop 1 := by
  unfold opIndexM at ho
  cases hf : FindF st key fuel (some (h key % st.primary_size)) with
  | none =>
    rw [hf] at ho
    exact absurd ho (by simp)
  | some o =>
    cases o with
    | some p =>
      rw [hf] at ho
      dsimp only at ho
      injection ho with hpair
      injection hpair with h1 h2
      exact Or.inl (by rw [← h1])
    | none =>
      rw [hf] at ho
      dsimp only at ho
      cases hins : InsertF h fuel st (key, 0) (h key % st.primary_size) with
      | none =>
        rw [hins] at ho
        exact absurd ho (by simp)
      | some r =>
        rw [hins] at ho
        simp only [Option.bind_eq_bind, Option.some_bind] at ho
        injection ho with hpair
        injection hpair with h1 h2
        rw [← h1]
        exact ((execF_spec h fuel).1 st (key, 0) _ r.1 r.2 hins).2.1

/-- A completed copy-assignment keeps the target's table untouched (equal
contents) or rebuilds at the source's primary size, re-tabling on any nested
rehash. -/
theorem assignM_primary (h : Nat → Nat) (b a : HMState) (fuel : Nat)
    (b' : HMState) (hmem : a.primary_size ∈ PRIMES.drop 1)
    (hass : assignM h b a fuel = some b') :
    b'.primary_size = b.primary_size ∨ b'.primary_size ∈ PRIMES.drop 1 := by
  unfold assignM at hass
  by_cases heq : pairsOf b.values = pairsOf a.values
  · rw [if_pos heq] at hass
    exact Or.inl (by rw [← Option.some_inj.mp hass])
  · rw [if_neg heq] at hass
    rw [rehashFold] at hass
    obtain ⟨r, hex, hb'⟩ := Option.map_eq_some'.mp hass
    obtain ⟨-, hprim, -⟩ := (execF_spec h fuel).2.2 _ _ r.1 r.2 hex
    rcases hprim with h1 | h1
    · refine Or.inr ?_
      rw [← hb', h1]
      exact hmem
    · refine Or.inr ?_
      rw [← hb']
      exact h1

/-- The copy constructor reproduces the source's primary size, re-tabling on
any nested rehash during the reinsertion. -/
theorem copyCtorM_primary (h : Nat → Nat) (other : HMState) (fuel : Nat)
    (st' : HMState) (hc : copyCtorM h other fuel = some st') :
    st'.primary_size = other.primary_size ∨
      st'.primary_size ∈ PRIMES.drop 1 := by
  unfold copyCtorM rehashFold at hc
  dsimp only at hc
  obtain ⟨r, hex, hst'⟩ := Option.map_eq_some'.mp hc
  obtain ⟨-, hprim, -⟩ := (execF_spec h fuel).2.2 _ _ r.1 r.2 hex
  rcases hprim with h1 | h1
  · exact Or.inl (by rw [← hst', h1])
  · exact Or.inr (by rw [← hst']; exact h1)

/-- Running any sequence of public mutating operations — insert, erase,
`operator[]`, `clear`, and copy-assignment from sources whose primary sizes
come from the prime table — keeps the primary size or re-tables it. -/
theorem runMut_primary (h : Nat → Nat) (fuel : Nat) :
    ∀ ops st st', (∀ a ∈ assignSources ops, a.primary_size ∈ PRIMES.drop 1) →
      runMut h fuel st ops = some st' →
      st'.primary_size = st.primary_size ∨
        st'.primary_size ∈ PRIMES.drop 1 := by
  intro ops
  induction ops with
  | nil =>
    intro st st' _ hr
    have h1 : st = st' := by simpa [runMut] using hr
    exact Or.inl (h1 ▸ rfl)
  | cons op rest ih =>
    intro st st' hsrc hr
    have step : ∀ st1, st1.primary_size = st.primary_size ∨
        st1.primary_size ∈ PRIMES.drop 1 →
        (∀ a ∈ assignSources rest, a.primary_size ∈ PRIMES.drop 1) →
        runMut h fuel st1 rest = some st' →
        st'.primary_size = st.primary_size ∨
          st'.primary_size ∈ PRIMES.drop 1 := by
      intro st1 h1 hsrc1 hrest
      rcases ih st1 st' hsrc1 hrest with h2 | h2
      · rcases h1 with h1 | h1
        · exact Or.inl (h2.trans h1)
        · exact Or.inr (h2 ▸ h1)
      · exact Or.inr h2
    have hrest_src : ∀ a ∈ assignSources rest, a.primary_size ∈ PRIMES.drop 1 := by
      intro a ha
      apply hsrc
      cases op with
      | mins k v => exact ha
      | mdel k => exact ha
      | midx k => exact ha
      | mclear => exact ha
      | massign b => exact List.mem_cons_of_mem _ ha
    cases op with
    | mins k v =>
      rw [runMut] at hr
      cases hp : pubInsertM h st (k, v) fuel with
      | none =>
        rw [hp] at hr
        exact absurd hr (by simp)
      | some st1 =>
        rw [hp] at hr
        simp only [Option.bind_eq_bind, Option.some_bind] at hr
        exact step st1 (pubInsertM_primary h st (k, v) fuel st1 hp) hrest_src hr
    | mdel k =>
      rw [runMut] at hr
      cases hp : eraseM h st k fuel with
      | none =>
        rw [hp] at hr
        exact absurd hr (by simp)
      | some st1 =>
        rw [hp] at hr
        simp only [Option.bind_eq_bind, Option.some_bind] at hr
        refine step st1 ?_ hrest_src hr
        rcases eraseM_shape h st k fuel st1 hp with h1 | ⟨-, -, -, h1⟩
        · exact Or.inl (h1 ▸ rfl)
        · exact Or.inl h1
    | midx k =>
      rw [runMut] at hr
      cases hp : opIndexM h st k fuel with
      | none =>
        rw [hp] at hr
        exact absurd hr (by simp)
      | some rv =>
        rw [hp] at hr
        simp only [Option.bind_eq_bind, Option.some_bind] at hr
        exact step rv.1 (opIndexM_primary h st k fuel rv.1 rv.2 hp) hrest_src hr
    | mclear =>
      rw [runMut] at hr
      exact step (clearM st) (Or.inl rfl) hrest_src hr
    | massign a =>
      rw [runMut] at hr
      cases hp : assignM h st a fuel with
      | none =>
        rw [hp] at hr
        exact absurd hr (by simp)
      | some st1 =>
        rw [hp] at hr
        simp only [Option.bind_eq_bind, Option.some_bind] at hr
        have hamem : a.primary_size ∈ PRIMES.drop 1 :=
          hsrc a (List.mem_cons_self a _)
        exact step st1 (assignM_primary h st a fuel st1 hamem hp) hrest_src hr

/-- C10: the default constructor builds a primary region of size 3 — an
entry of the static prime table — with a one-slot cellar; the
range/initializer-list constructors, and the copy constructor applied to a
source whose primary size is from the table, also produce primary sizes
drawn from the table; and after any completed sequence of public mutating
operations — insert, erase, `operator[]`, `clear`, and copy-assignment from
such sources — started from a state whose primary size is from the table,
the primary size is still a table entry (the remaining public operations
`find`, `at`, `size`, `empty`, `begin`/`end` and `hash_function` do not
modify the map).  Every table entry searched is at least 3 ≥ 2, so the
`hash(key) % primary_size` computations of insert, erase, find, at and
`operator[]` never take a modulus by zero, even on an empty map. -/
theorem primary_size_from_table :
    initState.primary_size = 3 ∧ initState.cellar_size = 1 ∧
    initState.primary_size ∈ PRIMES.drop 1 ∧
    (∀ h l fuel st', fromListCtor h l fuel = some st' →
      st'.primary_size ∈ PRIMES.drop 1 ∧ 2 ≤ st'.primary_size ∧
        0 < st'.primary_size) ∧
    (∀ h other fuel st', other.primary_size ∈ PRIMES.drop 1 →
      copyCtorM h other fuel = some st' →
      st'.primary_size ∈ PRIMES.drop 1 ∧ 2 ≤ st'.primary_size ∧
        0 < st'.primary_size) ∧
    (∀ h fuel ops st st', st.primary_size ∈ PRIMES.drop 1 →
      (∀ a ∈ assignSources ops, a.primary_size ∈ PRIMES.drop 1) →
      runMut h fuel st ops = some st' →
      st'.primary_size ∈ PRIMES.drop 1 ∧ 2 ≤ st'.primary_size ∧
        0 < st'.primary_size) := by
  refine ⟨rfl, rfl, by decide, ?_, ?_, ?_⟩
  · intro h l fuel st' hr
    unfold fromListCtor RehashF at hr
    dsimp only at hr
    obtain ⟨r, hex, hst'⟩ := Option.map_eq_some'.mp hr
    obtain ⟨-, hmem, -⟩ := (execF_spec h fuel).2.1 _ _ r.1 r.2 hex
    rw [← hst']
    have h3 := PRIMES_tail_ge _ hmem
    exact ⟨hmem, by omega, by omega⟩
  · intro h other fuel st' hom hc
    have hmem : st'.primary_size ∈ PRIMES.drop 1 := by
      rcases copyCtorM_primary h other fuel st' hc with h1 | h1
      · rw [h1]
        exact hom
      · exact h1
    have h3 := PRIMES_tail_ge _ hmem
    exact ⟨hmem, by omega, by omega⟩
  · intro h fuel ops st st' hst hsrc hr
    have hmem : st'.primary_size ∈ PRIMES.drop 1 := by
      rcases runMut_primary h fuel ops st st' hsrc hr with h1 | h1
      · rw [h1]
        exact hst
      · exact h1
    have h3 := PRIMES_tail_ge _ hmem
    exact ⟨hmem, by omega, by omega⟩

/-- Witness for `primary_size_from_table`: running `mutOps` — which
exercises insert, `operator[]`, `clear`, copy-assignment and erase — from
the default-constructed map ends with primary size 3, drawn from the prime
table. -/
theorem primary_size_from_table_witness :
    mutResult.primary_size ∈ PRIMES.drop 1 ∧ 2 ≤ mutResult.primary_size ∧
      0 < mutResult.primary_size :=
  primary_size_from_table.2.2.2.2.2 hId 100 mutOps initState mutResult
    (by decide) (by decide) (by decide)

end CoalescedHashMap
